import Mathlib

/-!
Verification of the Anvil region-file codec (`src/anvil_writer.py`) of the
map2craft repository.  The Python source is shallowly embedded: pure functions
become Lean functions on `Nat`/`Int`/`List`, Python exceptions become
`Except String`, and Python's arbitrary-precision integers become `Int`
(with the explicit `2^63`/`2^64` wrap-arounds that the source performs by
hand).  Each embedded definition carries a comment naming the source lines
it translates.
-/

set_option maxRecDepth 2000

namespace AnvilWriter

/-! ### BitPacker (anvil_writer.py lines 14-103)

Block-state bit packing for the 1.16+ format: indices are packed
low-bits-first into 64-bit words and may not straddle a word boundary.
-/

/-- Lines 42-44 / 52-54: `if current_long_val >= 2**63: current_long_val -= 2**64`.
Converts the unsigned accumulator to the signed 64-bit value stored in NBT. -/
def toSigned64 (v : Nat) : Int :=
  if 2 ^ 63 ≤ v then (v : Int) - 2 ^ 64 else (v : Int)

/-- Lines 76-78 / 94-95: `if current_long_val < 0: current_long_val += 2**64`.
Converts a signed 64-bit word back to its unsigned reading. -/
def signedToUnsigned (v : Int) : Int :=
  if v < 0 then v + 2 ^ 64 else v

/-- The current word while unpacking: `longs[i]` (sign-fixed) when `i` is in
range, `0` past the end (lines 73, 92-97). -/
def nthLong (longs : List Int) (i : Nat) : Int :=
  signedToUnsigned ((longs.get? i).getD 0)

/-- Line 82-83: `val = (current_long_val >> (blocks_in_current_long *
bits_per_block)) & mask` with `mask = (1 << bits) - 1`.  Python's `>>` on the
(non-negative after sign fix-up) word is floor division and `& mask` is
`% 2^bits`; the result is a non-negative Python int, hence `Nat`. -/
def extractVal (cur : Int) (sh bits : Nat) : Nat :=
  ((cur / (2 : Int) ^ sh) % (2 : Int) ^ bits).toNat

/-- The packing loop of `BitPacker.pack` (lines 30-55), emitting words in
order instead of writing into the pre-sized `longs` array; the word-count
theorem below shows the pre-sized array is filled exactly. -/
def packLoop (b bpl : Nat) : List Nat → Nat → Nat → List Int
  | [], acc, inCur => if 0 < inCur then [toSigned64 acc] else []
  | idx :: rest, acc, inCur =>
    let acc' := acc ||| (idx <<< (inCur * b))
    if bpl ≤ inCur + 1 then
      toSigned64 acc' :: packLoop b bpl rest 0 0
    else
      packLoop b bpl rest acc' (inCur + 1)

/-- `BitPacker.pack` (lines 22-59): `if bits_per_block < 4: bits_per_block=4`,
`blocks_per_long = 64 // bits_per_block`, then the packing loop. -/
def BitPacker.pack (indices : List Nat) (bits : Nat) : List Int :=
  let b := if bits < 4 then 4 else bits
  packLoop b (64 / b) indices 0 0

/-- The unpacking loop of `BitPacker.unpack` (lines 80-97): one step per
requested value, advancing to the next word after `blocks_per_long` values. -/
def unpackLoop (longs : List Int) (b bpl : Nat) :
    Nat → Nat → Nat → Int → List Nat
  | 0, _, _, _ => []
  | n + 1, longIdx, inCur, cur =>
    let val := extractVal cur (inCur * b) b
    if bpl ≤ inCur + 1 then
      val :: unpackLoop longs b bpl n (longIdx + 1) 0 (nthLong longs (longIdx + 1))
    else
      val :: unpackLoop longs b bpl n longIdx (inCur + 1) cur

/-- `BitPacker.unpack` (lines 62-99). -/
def BitPacker.unpack (longs : List Int) (bits count : Nat) : List Nat :=
  let b := if bits < 4 then 4 else bits
  unpackLoop longs b (64 / b) count 0 0 (nthLong longs 0)

/-- Line 102-103: `max(4, max_value.bit_length())`.  `bit_length n` is
`log2 n + 1` for positive `n` and `0` for `n = 0`. -/
def bitLength (n : Nat) : Nat := if n = 0 then 0 else Nat.log2 n + 1

def BitPacker.min_bits (maxValue : Nat) : Nat := max 4 (bitLength maxValue)

/-! ### NBT tag model

A minimal model of the `amulet.nbt` tag values the codec manipulates.
Compounds are association lists in insertion order (the underlying Python
dict has unique keys; lookups take the first match).  `tagStr` models
`str(tag)`, which the source only applies to scalar tags. -/

inductive NbtTag where
  | byte : Int → NbtTag
  | int : Int → NbtTag
  | long : Int → NbtTag
  | string : String → NbtTag
  | list : List NbtTag → NbtTag
  | compound : List (String × NbtTag) → NbtTag
  | longArray : List Int → NbtTag

/-- `str(tag)`: the raw string for `TAG_String`, a decimal rendering for the
numeric tags (the codec only ever formats strings and numbers). -/
def tagStr : NbtTag → String
  | .string s => s
  | .byte v => toString v
  | .int v => toString v
  | .long v => toString v
  | .list _ => ""
  | .compound _ => ""
  | .longArray _ => ""

/-- `tag[key]`: mapping access; raises `KeyError` when the key is absent and
`TypeError` when the receiver is not a compound. -/
def getItemE (t : NbtTag) (k : String) : Except String NbtTag :=
  match t with
  | .compound e =>
    match List.lookup k e with
    | some v => .ok v
    | none => .error "KeyError"
  | _ => .error "TypeError: not a mapping"

/-- `key in tag`: membership test on a compound (mapping) tag. -/
def hasKeyE (t : NbtTag) (k : String) : Except String Bool :=
  match t with
  | .compound e => .ok (List.lookup k e).isSome
  | _ => .error "TypeError: not a mapping"

/-- `int(tag)`: defined for the numeric tags, `TypeError` otherwise. -/
def tagIntE : NbtTag → Except String Int
  | .byte v => .ok v
  | .int v => .ok v
  | .long v => .ok v
  | _ => .error "TypeError: int() argument"

/-- Line 146-151: the `data` field read as a list of Python ints (a
`TAG_Long_Array` value). -/
def tagLongsE : NbtTag → Except String (List Int)
  | .longArray vs => .ok vs
  | _ => .error "TypeError: not a long array"

/-- Insertion sort used to model Python's `sorted` on strings. -/
def insertSorted (x : String) : List String → List String
  | [] => [x]
  | y :: ys => if x ≤ y then x :: y :: ys else y :: insertSorted x ys

def sortStrings (l : List String) : List String := l.foldr insertSorted []

/-- Lines 137-139 / 168-170:
`props = ",".join(f"{k}={p_dict[k]}" for k in sorted(p_dict.keys()))`.
Every `k` comes from the dict's own keys, so the lookup always succeeds;
the `getD` default is unreachable. -/
def propsJoin (e : List (String × NbtTag)) : String :=
  String.intercalate ","
    ((sortStrings (e.map Prod.fst)).map
      (fun k => k ++ "=" ++ tagStr ((List.lookup k e).getD (.string ""))))

/-- The canonical palette key `f"{name}[{props}]"` computed identically at
lines 135-141 (`Section.from_nbt`) and lines 166-172 (`Section.set_block`). -/
def canonicalKey (bd : NbtTag) : Except String String :=
  match getItemE bd "Name" with
  | .error e => .error e
  | .ok nt =>
    match hasKeyE bd "Properties" with
    | .error e => .error e
    | .ok hasProps =>
      if hasProps then
        match getItemE bd "Properties" with
        | .error e => .error e
        | .ok pt =>
          match pt with
          | .compound pe => .ok (tagStr nt ++ "[" ++ propsJoin pe ++ "]")
          | _ => .error "AttributeError: keys"
      else
        .ok (tagStr nt ++ "[" ++ "]")

/-! ### Section (anvil_writer.py lines 105-209) -/

/-- A 16x16x16 chunk section: palette, canonical-key map and the flat
4096-entry block-index array (lines 109-117). -/
structure Section where
  y_index : Int
  palette : List NbtTag
  palette_map : List (String × Nat)
  blocks : List Nat

/-- `Section.__init__` (lines 109-117).  Note the initial `palette_map` key
is the bare `"minecraft:air"`, without the `[]` suffix that `set_block` and
`from_nbt` append. -/
def Section.new (y : Int) : Section :=
  { y_index := y
    palette := [.compound [("Name", .string "minecraft:air")]]
    palette_map := [("minecraft:air", 0)]
    blocks := List.replicate 4096 0 }

/-- Assignment into a Python dict: overwrite the entry when the key is
already present (keys are unique), else append. -/
def dictInsertStr (d : List (String × Nat)) (k : String) (v : Nat) :
    List (String × Nat) :=
  if (List.lookup k d).isSome then
    d.map (fun kv => if kv.1 = k then (k, v) else kv)
  else d ++ [(k, v)]

/-- `section.palette[...]`-building loop of `Section.from_nbt`
(lines 128-142): appends every palette entry and records its canonical key. -/
def loadPalette : List NbtTag → List NbtTag → List (String × Nat) →
    Except String (List NbtTag × List (String × Nat))
  | [], pal, pm => .ok (pal, pm)
  | p :: rest, pal, pm =>
    match canonicalKey p with
    | .error e => .error e
    | .ok key => loadPalette rest (pal ++ [p]) (dictInsertStr pm key pal.length)

/-- Python list read `l[i]` with negative-index wrap-around and `IndexError`
outside `-len .. len-1`. -/
def pyListGet {α : Type} (l : List α) (i : Int) : Except String α :=
  let j := if i < 0 then i + l.length else i
  if h : 0 ≤ j ∧ j < (l.length : Int) then
    .ok (l.get ⟨j.toNat, by omega⟩)
  else .error "IndexError: list index out of range"

/-- Python list write `l[i] = v`, same index rules as `pyListGet`. -/
def pyListSet {α : Type} (l : List α) (i : Int) (v : α) :
    Except String (List α) :=
  let j := if i < 0 then i + l.length else i
  if 0 ≤ j ∧ j < (l.length : Int) then
    .ok (l.set j.toNat v)
  else .error "IndexError: list assignment index out of range"

/-- `Section.from_nbt` (lines 119-159). -/
def Section.from_nbt (tag : NbtTag) : Except String Section :=
  match getItemE tag "Y" with
  | .error e => .error e
  | .ok yt =>
    match tagIntE yt with
    | .error e => .error e
    | .ok y =>
      let s := Section.new y
      match hasKeyE tag "block_states" with
      | .error e => .error e
      | .ok hasBs =>
        if hasBs then
          match getItemE tag "block_states" with
          | .error e => .error e
          | .ok bs =>
            match hasKeyE bs "palette" with
            | .error e => .error e
            | .ok hasPal =>
              match (if hasPal then
                  match getItemE bs "palette" with
                  | .error e => .error e
                  | .ok pt =>
                    match pt with
                    | .list items => loadPalette items [] []
                    | _ => .error "TypeError: not iterable"
                else .ok (s.palette, s.palette_map) :
                  Except String (List NbtTag × List (String × Nat))) with
              | .error e => .error e
              | .ok (pal, pm) =>
                match hasKeyE bs "data" with
                | .error e => .error e
                | .ok hasData =>
                  if hasData then
                    match getItemE bs "data" with
                    | .error e => .error e
                    | .ok dt =>
                      match tagLongsE dt with
                      | .error e => .error e
                      | .ok longsList =>
                        .ok { y_index := y, palette := pal, palette_map := pm,
                              blocks := BitPacker.unpack longsList
                                (BitPacker.min_bits (pal.length - 1)) 4096 }
                  else
                    .ok { y_index := y, palette := pal, palette_map := pm,
                          blocks := List.replicate 4096 0 }
        else .ok s

/-- `Section.set_block` (lines 161-184).  The palette append happens before
the block-array write; for the in-range coordinates the claims quantify over
the write cannot fail, so modelling the whole call as one `Except` value is
faithful. -/
def Section.set_block (s : Section) (x y z : Int) (block_data : NbtTag) :
    Except String Section :=
  match canonicalKey block_data with
  | .error e => .error e
  | .ok key =>
    let (pal, pm, index) :=
      match List.lookup key s.palette_map with
      | some i => (s.palette, s.palette_map, i)
      | none => (s.palette ++ [block_data],
          s.palette_map ++ [(key, s.palette.length)], s.palette.length)
    match pyListSet s.blocks (y * 256 + z * 16 + x) index with
    | .error e => .error e
    | .ok blocks =>
      .ok { y_index := s.y_index, palette := pal, palette_map := pm,
            blocks := blocks }

/-- `Section.get_block_id` (lines 186-191). -/
def Section.get_block_id (s : Section) (x y z : Int) : Except String Nat :=
  pyListGet s.blocks (y * 256 + z * 16 + x)

/-- `Section.to_nbt` (lines 194-209): always emits `Y` and the palette;
emits packed `data` only when the palette has more than one entry. -/
def Section.to_nbt (s : Section) : NbtTag :=
  .compound
    [("Y", .byte s.y_index),
     ("block_states", .compound
       (("palette", .list s.palette) ::
        (if 1 < s.palette.length then
          [("data", .longArray (BitPacker.pack s.blocks
            (BitPacker.min_bits (s.palette.length - 1))))]
         else [])))]

/-- Concrete section tag used to witness the deserialization half of the
single-entry-palette claim: a palette with one entry and no `data` field. -/
def sampleSectionTagNoData : NbtTag :=
  .compound
    [("Y", .byte 3),
     ("block_states", .compound
       [("palette", .list [.compound [("Name", .string "minecraft:stone")]])])]

def sampleSectionBsNoData : NbtTag :=
  .compound [("palette", .list [.compound [("Name", .string "minecraft:stone")]])]

def sampleSectionNoData : Section :=
  { y_index := 3
    palette := [.compound [("Name", .string "minecraft:stone")]]
    palette_map := [("minecraft:stone[]", 0)]
    blocks := List.replicate 4096 0 }

/-! ### Chunk (anvil_writer.py lines 211-317) -/

/-- Insertion sort with a boolean order, modelling Python `sorted`. -/
def insertLeBy {α : Type} (le : α → α → Bool) (x : α) : List α → List α
  | [] => [x]
  | y :: ys => if le x y then x :: y :: ys else y :: insertLeBy le x ys

def sortIntsAsc (l : List Int) : List Int :=
  l.foldr (insertLeBy (fun a b => decide (a ≤ b))) []

structure Chunk where
  x : Int
  z : Int
  sections : List (Int × Section)
  data_version : Int
  status : String
  other_tags : List (String × NbtTag)

/-- `Chunk.__init__` (lines 215-221). -/
def Chunk.new (cx cz : Int) : Chunk :=
  { x := cx, z := cz, sections := [], data_version := 3465,
    status := "minecraft:full", other_tags := [] }

/-- `range(15, -1, -1)` (line 251). -/
def ydesc : List Int :=
  [15, 14, 13, 12, 11, 10, 9, 8, 7, 6, 5, 4, 3, 2, 1, 0]

/-- The inner loop of `Chunk.get_highest_block` (lines 251-262): scan one
section's column top-down; a palette index at or beyond the palette length
is skipped (line 256 guard), a resolved non-air name returns the world Y. -/
def scanSectionColumn (sec : Section) (sIdx x z : Int) :
    List Int → Except String (Option Int)
  | [] => .ok none
  | y :: ys =>
    match Section.get_block_id sec x y z with
    | .error e => .error e
    | .ok blockIdx =>
      if h : blockIdx < sec.palette.length then
        match getItemE (sec.palette.get ⟨blockIdx, h⟩) "Name" with
        | .error e => .error e
        | .ok nameTag =>
          if tagStr nameTag ≠ "minecraft:air" then .ok (some (sIdx * 16 + y))
          else scanSectionColumn sec sIdx x z ys
      else scanSectionColumn sec sIdx x z ys

/-- The outer loop of `Chunk.get_highest_block` (lines 248-262):
`self.sections[s_idx]` is a dict read whose key comes from the dict's own
keys, so the `getD` default is unreachable. -/
def scanSections (c : Chunk) (x z : Int) :
    List Int → Except String (Option Int)
  | [] => .ok none
  | k :: ks =>
    match scanSectionColumn ((List.lookup k c.sections).getD (Section.new 0))
        k x z ydesc with
    | .error e => .error e
    | .ok (some r) => .ok (some r)
    | .ok none => scanSections c x z ks

/-- `Chunk.get_highest_block` (lines 238-264).  Line 246's
`sorted(keys, reverse=True)` is the reverse of the ascending sort (the dict
keys are distinct). -/
def Chunk.get_highest_block (c : Chunk) (x z : Int) : Except String Int :=
  match scanSections c x z ((sortIntsAsc (c.sections.map Prod.fst)).reverse) with
  | .error e => .error e
  | .ok (some r) => .ok r
  | .ok none => .ok (-64)

/-- Line 314: the top-level keys managed by `Chunk.to_nbt`/`from_nbt`. -/
def chunkManagedKeys : List String :=
  ["DataVersion", "Status", "xPos", "zPos", "yPos", "sections"]

/-- `Chunk.to_nbt` (lines 267-287): fixed header fields, the present
sections sorted ascending by section-Y, then the preserved opaque tags
whose keys do not collide with a managed field. -/
def Chunk.to_nbt (c : Chunk) : NbtTag :=
  .compound
    ([("DataVersion", .int c.data_version),
      ("Status", .string c.status),
      ("xPos", .int c.x),
      ("zPos", .int c.z),
      ("yPos", .int (-64)),
      ("sections", .list ((sortIntsAsc (c.sections.map Prod.fst)).map
        (fun y => Section.to_nbt ((List.lookup y c.sections).getD (Section.new 0)))))]
     ++ c.other_tags.filter (fun kv => !(chunkManagedKeys.contains kv.1)))

/-- Assignment `chunk.sections[y] = section` into the sparse section dict. -/
def dictInsertSection (d : List (Int × Section)) (k : Int) (v : Section) :
    List (Int × Section) :=
  if (List.lookup k d).isSome then
    d.map (fun kv => if kv.1 = k then (k, v) else kv)
  else d ++ [(k, v)]

/-- The section-parsing loop of `Chunk.from_nbt` (lines 301-310): an entry is
registered only when it has both a `Y` and a `block_states` key and decodes
without error; a decode failure is printed and skipped.  A `TypeError` from
the `in` test on a non-mapping entry propagates (it is outside the `try`). -/
def Chunk.parseSectionList : List NbtTag → List (Int × Section) →
    Except String (List (Int × Section))
  | [], acc => .ok acc
  | st :: rest, acc =>
    match hasKeyE st "Y" with
    | .error e => .error e
    | .ok hy =>
      if hy then
        match hasKeyE st "block_states" with
        | .error e => .error e
        | .ok hb =>
          if hb then
            match Section.from_nbt st with
            | .ok sec => Chunk.parseSectionList rest (dictInsertSection acc sec.y_index sec)
            | .error _ => Chunk.parseSectionList rest acc
          else Chunk.parseSectionList rest acc
      else Chunk.parseSectionList rest acc

/-- `Chunk.from_nbt` (lines 289-317). -/
def Chunk.from_nbt (tag : NbtTag) : Except String Chunk :=
  match (getItemE tag "xPos") with
  | .error e => .error e
  | .ok xt =>
    match tagIntE xt with
    | .error e => .error e
    | .ok cx =>
      match (getItemE tag "zPos") with
      | .error e => .error e
      | .ok zt =>
        match tagIntE zt with
        | .error e => .error e
        | .ok cz =>
          match hasKeyE tag "DataVersion" with
          | .error e => .error e
          | .ok hdv =>
            match (if hdv then
                match getItemE tag "DataVersion" with
                | .error e => .error e
                | .ok dvt => tagIntE dvt
              else .ok 3465 : Except String Int) with
            | .error e => .error e
            | .ok dv =>
              match hasKeyE tag "Status" with
              | .error e => .error e
              | .ok hst =>
                match (if hst then
                    match getItemE tag "Status" with
                    | .error e => .error e
                    | .ok stt => .ok (tagStr stt)
                  else .ok "minecraft:full" : Except String String) with
                | .error e => .error e
                | .ok st =>
                  match hasKeyE tag "sections" with
                  | .error e => .error e
                  | .ok hsec =>
                    match (if hsec then
                        match getItemE tag "sections" with
                        | .error e => .error e
                        | .ok sl =>
                          match sl with
                          | .list entries => Chunk.parseSectionList entries []
                          | _ => .error "TypeError: not iterable"
                      else .ok [] : Except String (List (Int × Section))) with
                    | .error e => .error e
                    | .ok secs =>
                      match tag with
                      | .compound e =>
                        .ok { x := cx, z := cz, sections := secs,
                              data_version := dv, status := st,
                              other_tags := e.filter
                                (fun kv => !(chunkManagedKeys.contains kv.1)) }
                      | _ => .error "TypeError: not a mapping"

/-- The resolved name of palette slot `i`: the guarded read at lines 256-259
(`section.palette[block_idx]` then `str(block_tag["Name"])`). -/
def Section.nameAt (s : Section) (i : Nat) : Except String String :=
  match s.palette.get? i with
  | none => .error "IndexError"
  | some t =>
    match getItemE t "Name" with
    | .error e => .error e
    | .ok nt => .ok (tagStr nt)

/-- The section used to witness the sparse-column height query: air at
palette slot 0, stone at slot 1, one stone cell at local (0,0,0). -/
def sparseSampleSection : Section :=
  { y_index := 3
    palette := [.compound [("Name", .string "minecraft:air")],
                .compound [("Name", .string "minecraft:stone")]]
    palette_map := [("minecraft:air[]", 0), ("minecraft:stone[]", 1)]
    blocks := (List.replicate 4096 0).set 0 1 }

def sparseSampleChunk : Chunk :=
  { x := 0, z := 0, sections := [(3, sparseSampleSection)],
    data_version := 3465, status := "minecraft:full", other_tags := [] }

/-- A section whose palette has the single entry air but whose blocks carry
the out-of-range index 7 at flat position 5. -/
def oorSampleSection : Section :=
  { y_index := 2
    palette := [.compound [("Name", .string "minecraft:air")]]
    palette_map := [("minecraft:air[]", 0)]
    blocks := (List.replicate 4096 0).set 5 7 }

def oorSampleChunk : Chunk :=
  { x := 0, z := 0, sections := [(2, oorSampleSection)],
    data_version := 3465, status := "minecraft:full", other_tags := [] }

/-- The section tag whose packed data unpacks to palette index 1 while the
palette has only the one entry (air): index 1 is out of range. -/
def oorSampleTag : NbtTag :=
  .compound
    [("Y", .byte 2),
     ("block_states", .compound
       [("palette", .list [.compound [("Name", .string "minecraft:air")]]),
        ("data", .longArray [1])])]

def oorDecodedSection : Section :=
  { y_index := 2
    palette := [.compound [("Name", .string "minecraft:air")]]
    palette_map := [("minecraft:air[]", 0)]
    blocks := BitPacker.unpack [1] 4 4096 }

/-! ### Region save step and chunk lookup (anvil_writer.py lines 320-565)

`Region.save` is file I/O around a pure placement computation; the file is
modelled as the list of its bytes and one loop iteration of `save`
(lines 484-551) as a function from the current file contents, the chunk's
current location-table entry and the ready payload (length header +
compressed data, whose bytes are opaque here) to the new file contents and
the new location-table entry.  Python file semantics: writing at an offset
overwrites in place and extends the file when the write runs past the end. -/

def SECTOR_SIZE : Nat := 4096

/-- Bytes written at `pos`: overwrite, extending with zeros when `pos` is
past the end (Python `seek`+`write`). -/
def fileWrite (file : List Nat) (pos : Nat) (data : List Nat) : List Nat :=
  file.take pos ++ List.replicate (pos - file.length) 0
    ++ data ++ file.drop (pos + data.length)

/-- Line 503: `sectors_needed = (total_len + SECTOR_SIZE - 1) // SECTOR_SIZE`. -/
def sectorsNeededFor (payloadLen : Nat) : Nat :=
  (payloadLen + (SECTOR_SIZE - 1)) / SECTOR_SIZE

/-- Lines 529-531: zero-pad the end of the file to the next sector
boundary. -/
def padTo (n : Nat) : Nat :=
  if n % SECTOR_SIZE ≠ 0 then SECTOR_SIZE - n % SECTOR_SIZE else 0

/-- Lines 540-547: write the payload at sector `offset`, then zero-pad the
final partial sector. -/
def regionWritePayloadAt (file : List Nat) (offset : Nat) (payload : List Nat) :
    List Nat :=
  fileWrite
    (fileWrite file (offset * SECTOR_SIZE) payload)
    (offset * SECTOR_SIZE + payload.length)
    (List.replicate ((SECTOR_SIZE - payload.length % SECTOR_SIZE) % SECTOR_SIZE) 0)

/-- One iteration of the `Region.save` chunk loop (lines 484-551), from the
payload assembly onwards: placement policy (reuse the old sectors when
`old_offset > 0 and old_sector_count >= sectors_needed`, else append at the
sector-aligned end of file), the write, and the new location entry
`(new_offset << 8) | sectors_needed`. -/
def regionWriteChunk (file : List Nat) (oldLoc : Nat) (payload : List Nat) :
    List Nat × Nat :=
  let sectorsNeeded := sectorsNeededFor payload.length
  let oldOffset := oldLoc >>> 8
  let oldCount := oldLoc &&& 255
  if 0 < oldOffset ∧ sectorsNeeded ≤ oldCount then
    (regionWritePayloadAt file oldOffset payload,
      (oldOffset <<< 8) ||| sectorsNeeded)
  else
    let newOffset := (file.length + padTo file.length) / SECTOR_SIZE
    (regionWritePayloadAt (file ++ List.replicate (padTo file.length) 0)
      newOffset payload,
      (newOffset <<< 8) ||| sectorsNeeded)

/-- The entry of `Region.get_chunk` (lines 358-365): the bounds check
(`raise ValueError` outside 0..31) and the cache index
`(rx & 31) + (rz & 31) * 32`; for the values that pass the check the masks
are identities, written here as `% 32`. -/
def Region.get_chunk_index (rx rz : Int) : Except String Nat :=
  if ¬ (0 ≤ rx ∧ rx < 32 ∧ 0 ≤ rz ∧ rz < 32) then
    .error "Chunk coords out of range"
  else
    .ok ((rx % 32).toNat + (rz % 32).toNat * 32)

/-- An entry of the `sections` list is registered by `Chunk.from_nbt` under
key `k` iff it has both required keys and decodes to a section whose
`y_index` is `k` (lines 303-306). -/
def sectionEntryRegisters (st : NbtTag) (k : Int) : Prop :=
  hasKeyE st "Y" = .ok true ∧ hasKeyE st "block_states" = .ok true
    ∧ ∃ sec, Section.from_nbt st = .ok sec ∧ sec.y_index = k

/-- A well-formed entry of the witness chunk tag: both required keys present
and the decode succeeds (palette-only `block_states`). -/
def c10GoodEntry : NbtTag :=
  .compound
    [("Y", .byte 3),
     ("block_states", .compound
       [("palette", .list [.compound [("Name", .string "minecraft:air")]])])]

/-- An entry missing the `block_states` key: skipped by the section loop. -/
def c10NoBlockStatesEntry : NbtTag :=
  .compound [("Y", .byte 5)]

/-- An entry whose decode raises (`block_states` is not a mapping, so the
`"palette" in block_states` test inside `Section.from_nbt` raises): the
exception is caught and the entry skipped. -/
def c10BadDecodeEntry : NbtTag :=
  .compound [("Y", .byte 9), ("block_states", .int 0)]

def c10Entries : List NbtTag :=
  [c10GoodEntry, c10NoBlockStatesEntry, c10BadDecodeEntry]

def c10Tag : NbtTag :=
  .compound
    [("xPos", .int 1), ("zPos", .int 2), ("sections", .list c10Entries)]

def c10Section : Section :=
  { y_index := 3
    palette := [.compound [("Name", .string "minecraft:air")]]
    palette_map := [("minecraft:air[]", 0)]
    blocks := List.replicate 4096 0 }

def c10Chunk : Chunk :=
  { x := 1, z := 2, sections := [(3, c10Section)],
    data_version := 3465, status := "minecraft:full", other_tags := [] }

/-! #### BitPacker lemmas -/

theorem signedToUnsigned_toSigned64 {v : Nat} (h : v < 2 ^ 64) :
    signedToUnsigned (toSigned64 v) = (v : Nat) := by
  unfold toSigned64 signedToUnsigned
  split
  · have h1 : ((v : Int) - 2 ^ 64) < 0 := by
      have : (v : Int) < 2 ^ 64 := by exact_mod_cast h
      omega
    simp only [h1, if_pos]
    ring
  · have h2 : ¬ ((v : Int) < 0) := by
      have := Int.natCast_nonneg v
      omega
    simp [h2]

theorem toSigned64_range {v : Nat} (h : v < 2 ^ 64) :
    -(2 ^ 63) ≤ toSigned64 v ∧ toSigned64 v < 2 ^ 63 := by
  unfold toSigned64
  split <;> rename_i hv
  · have : (v : Int) < 2 ^ 64 := by exact_mod_cast h
    have : (2 ^ 63 : Int) ≤ (v : Int) := by exact_mod_cast hv
    constructor <;> omega
  · have h1 : (v : Int) < 2 ^ 63 := by exact_mod_cast (by omega : v < 2 ^ 63)
    have h2 := Int.natCast_nonneg v
    constructor <;> omega

/-- Disjoint or is addition: the accumulator occupies the low `k` bits and the
new index is shifted past them. -/
theorem lor_shiftLeft_eq_add {acc idx k : Nat} (h : acc < 2 ^ k) :
    acc ||| (idx <<< k) = acc + idx * 2 ^ k := by
  apply Nat.eq_of_testBit_eq
  intro j
  have hrhs : acc + idx * 2 ^ k = 2 ^ k * idx + acc := by ring
  rw [hrhs, Nat.testBit_mul_pow_two_add idx h j, Nat.testBit_or,
    Nat.testBit_shiftLeft]
  by_cases hj : j < k
  · have : ¬ (j ≥ k) := by omega
    simp [hj, this]
  · have hk : k ≤ j := by omega
    have : acc < 2 ^ j := lt_of_lt_of_le h (Nat.pow_le_pow_right (by norm_num) hk)
    simp [hj, hk, Nat.testBit_lt_two_pow this]

theorem extractVal_cast (u : Nat) (sh bits : Nat) :
    extractVal (u : Int) sh bits = (u / 2 ^ sh) % 2 ^ bits := by
  unfold extractVal
  have h1 : ((u : Int) / (2 : Int) ^ sh) % (2 : Int) ^ bits
      = (((u / 2 ^ sh) % 2 ^ bits : Nat) : Int) := by
    push_cast
    rfl
  rw [h1, Int.toNat_ofNat]

/-- Shifting the word list: the loop never looks at words before its current
index, so consing a word while bumping the index is invisible. -/
theorem unpackLoop_cons_shift (w : Int) (ws : List Int) (b bpl : Nat) :
    ∀ (n k j : Nat) (cur : Int),
      unpackLoop (w :: ws) b bpl n (k + 1) j cur = unpackLoop ws b bpl n k j cur := by
  intro n
  induction n with
  | zero => intro k j cur; rfl
  | succ m ih =>
    intro k j cur
    unfold unpackLoop
    split
    · have : nthLong (w :: ws) (k + 1 + 1) = nthLong ws (k + 1) := rfl
      rw [this, ih]
    · rw [ih]

theorem acc_step_lt {acc idx b s : Nat} (hacc : acc < 2 ^ s) (hidx : idx < 2 ^ b) :
    acc + idx * 2 ^ s < 2 ^ (s + b) := by
  calc acc + idx * 2 ^ s < 2 ^ s + idx * 2 ^ s := Nat.add_lt_add_right hacc _
    _ = (idx + 1) * 2 ^ s := by ring
    _ ≤ 2 ^ b * 2 ^ s := Nat.mul_le_mul_right _ (by omega)
    _ = 2 ^ (s + b) := by rw [← pow_add]; ring_nf

/-- The low `inCur * b` bits of the first word that `packLoop` will
eventually emit are exactly the current accumulator. -/
theorem packLoop_head_low (b bpl : Nat) (hle : bpl * b ≤ 64) :
    ∀ (rest : List Nat) (acc inCur : Nat), 0 < inCur → inCur < bpl →
      acc < 2 ^ (inCur * b) → (∀ i ∈ rest, i < 2 ^ b) →
      ∃ u : Nat, nthLong (packLoop b bpl rest acc inCur) 0 = (u : Int)
        ∧ u % 2 ^ (inCur * b) = acc ∧ u < 2 ^ 64 := by
  intro rest
  induction rest with
  | nil =>
    intro acc inCur h0 hin hacc _
    have hacc64 : acc < 2 ^ 64 := by
      have h1 : inCur * b ≤ 64 := le_trans (Nat.mul_le_mul_right b hin.le) hle
      exact lt_of_lt_of_le hacc (Nat.pow_le_pow_right (by norm_num) h1)
    refine ⟨acc, ?_, Nat.mod_eq_of_lt hacc, hacc64⟩
    simp only [packLoop, h0, if_pos, nthLong, List.get?, Option.getD_some]
    exact signedToUnsigned_toSigned64 hacc64
  | cons idx rest ih =>
    intro acc inCur h0 hin hacc hidx
    have hidx0 : idx < 2 ^ b := hidx idx (by simp)
    have hacc' : acc ||| (idx <<< (inCur * b)) = acc + idx * 2 ^ (inCur * b) :=
      lor_shiftLeft_eq_add hacc
    have hlt' : acc + idx * 2 ^ (inCur * b) < 2 ^ ((inCur + 1) * b) := by
      have := acc_step_lt hacc hidx0
      rwa [show (inCur + 1) * b = inCur * b + b by ring]
    unfold packLoop
    split <;> rename_i hflush
    · -- flush: the head word is the completed accumulator
      have hle64 : (inCur + 1) * b ≤ 64 := le_trans (Nat.mul_le_mul_right b (by omega)) hle
      have hlt64 : acc + idx * 2 ^ (inCur * b) < 2 ^ 64 :=
        lt_of_lt_of_le hlt' (Nat.pow_le_pow_right (by norm_num) hle64)
      refine ⟨acc + idx * 2 ^ (inCur * b), ?_, ?_, hlt64⟩
      · simp only [hacc', nthLong, List.get?, Option.getD_some]
        exact signedToUnsigned_toSigned64 hlt64
      · rw [Nat.add_mul_mod_self_right, Nat.mod_eq_of_lt hacc]
    · -- continue packing into the same word
      obtain ⟨u, hu, hmod, hu64⟩ := ih (acc ||| (idx <<< (inCur * b))) (inCur + 1)
        (by omega) (by omega) (by rwa [hacc']) (fun i hi => hidx i (by simp [hi]))
      refine ⟨u, hu, ?_, hu64⟩
      have hdvd : 2 ^ (inCur * b) ∣ 2 ^ ((inCur + 1) * b) :=
        pow_dvd_pow 2 (Nat.mul_le_mul_right b (by omega))
      calc u % 2 ^ (inCur * b)
          = u % 2 ^ ((inCur + 1) * b) % 2 ^ (inCur * b) := (Nat.mod_mod_of_dvd u hdvd).symm
        _ = (acc ||| (idx <<< (inCur * b))) % 2 ^ (inCur * b) := by rw [hmod]
        _ = acc := by rw [hacc', Nat.add_mul_mod_self_right, Nat.mod_eq_of_lt hacc]

/-- Unpacking what was just packed returns the original indices, from any
mid-word packing state. -/
theorem packLoop_unpackLoop (b bpl : Nat) (hb : 0 < b) (hbpl : 0 < bpl)
    (hle : bpl * b ≤ 64) :
    ∀ (indices : List Nat) (acc inCur : Nat), inCur < bpl →
      acc < 2 ^ (inCur * b) → (∀ i ∈ indices, i < 2 ^ b) →
      unpackLoop (packLoop b bpl indices acc inCur) b bpl indices.length 0 inCur
        (nthLong (packLoop b bpl indices acc inCur) 0) = indices := by
  intro indices
  induction indices with
  | nil => intro acc inCur _ _ _; rfl
  | cons idx rest ih =>
    intro acc inCur hin hacc hidx
    have hidx0 : idx < 2 ^ b := hidx idx (by simp)
    have hidxr : ∀ i ∈ rest, i < 2 ^ b := fun i hi => hidx i (by simp [hi])
    have hacc' : acc ||| (idx <<< (inCur * b)) = acc + idx * 2 ^ (inCur * b) :=
      lor_shiftLeft_eq_add hacc
    have hlt' : acc + idx * 2 ^ (inCur * b) < 2 ^ ((inCur + 1) * b) := by
      have := acc_step_lt hacc hidx0
      rwa [show (inCur + 1) * b = inCur * b + b by ring]
    have hdigit : (acc + idx * 2 ^ (inCur * b)) / 2 ^ (inCur * b) % 2 ^ b = idx := by
      rw [Nat.add_mul_div_right acc idx (Nat.pos_pow_of_pos _ (by norm_num)),
        Nat.div_eq_of_lt hacc, Nat.zero_add, Nat.mod_eq_of_lt hidx0]
    show unpackLoop _ b bpl (rest.length + 1) 0 inCur _ = idx :: rest
    unfold packLoop
    split <;> rename_i hflush
    · -- word flushed: the head of the output list is the completed word
      have hle64 : (inCur + 1) * b ≤ 64 := le_trans (Nat.mul_le_mul_right b (by omega)) hle
      have hlt64 : acc + idx * 2 ^ (inCur * b) < 2 ^ 64 :=
        lt_of_lt_of_le hlt' (Nat.pow_le_pow_right (by norm_num) hle64)
      have hhead : nthLong (toSigned64 (acc ||| (idx <<< (inCur * b))) ::
          packLoop b bpl rest 0 0) 0 = ((acc + idx * 2 ^ (inCur * b) : Nat) : Int) := by
        simp only [nthLong, List.get?, Option.getD_some, hacc']
        exact signedToUnsigned_toSigned64 hlt64
      rw [hhead]
      unfold unpackLoop
      rw [if_pos hflush, extractVal_cast, hdigit]
      congr 1
      have hshift : nthLong (toSigned64 (acc ||| (idx <<< (inCur * b))) ::
          packLoop b bpl rest 0 0) (0 + 1) = nthLong (packLoop b bpl rest 0 0) 0 := rfl
      rw [hshift, unpackLoop_cons_shift]
      exact ih 0 0 hbpl (by simp) hidxr
    · -- still filling the word: the head of the output carries the
      -- accumulator (with idx on top) in its low bits
      obtain ⟨u, hu, hmod, _⟩ := packLoop_head_low b bpl hle rest
        (acc ||| (idx <<< (inCur * b))) (inCur + 1) (by omega) (by omega)
        (by rwa [hacc']) hidxr
      rw [hu]
      unfold unpackLoop
      rw [if_neg hflush, extractVal_cast]
      have hval : u / 2 ^ (inCur * b) % 2 ^ b = idx := by
        have hslice : u % 2 ^ ((inCur + 1) * b) / 2 ^ (inCur * b) = u / 2 ^ (inCur * b) % 2 ^ b := by
          have : (2 : Nat) ^ ((inCur + 1) * b) = 2 ^ (inCur * b) * 2 ^ b := by
            rw [← pow_add]; ring_nf
          rw [this, Nat.mod_mul_right_div_self]
        rw [← hslice, hmod, hacc',
          Nat.add_mul_div_right acc idx (Nat.pos_pow_of_pos _ (by norm_num)),
          Nat.div_eq_of_lt hacc, Nat.zero_add]
      rw [hval]
      congr 1
      have := ih (acc ||| (idx <<< (inCur * b))) (inCur + 1) (by omega)
        (by rwa [hacc']) hidxr
      rwa [hu] at this

/-- Line 27: `long_count = math.ceil(len(indices) / blocks_per_long)`.
The emitted word list has exactly that length, i.e. the pre-sized array the
source writes into is filled exactly. -/
theorem packLoop_length (b bpl : Nat) (hbpl : 0 < bpl) :
    ∀ (indices : List Nat) (acc inCur : Nat), inCur < bpl →
      (packLoop b bpl indices acc inCur).length
        = (inCur + indices.length + (bpl - 1)) / bpl := by
  intro indices
  induction indices with
  | nil =>
    intro acc inCur hin
    unfold packLoop
    by_cases h0 : 0 < inCur
    · rw [if_pos h0]
      simp only [List.length_singleton, List.length_nil, Nat.add_zero]
      exact (Nat.div_eq_of_lt_le (by omega) (by omega)).symm
    · have hz : inCur = 0 := by omega
      rw [if_neg h0, hz]
      simp only [List.length_nil, Nat.add_zero, Nat.zero_add]
      exact (Nat.div_eq_of_lt (by omega)).symm
  | cons idx rest ih =>
    intro acc inCur hin
    unfold packLoop
    split <;> rename_i hflush
    · simp only [List.length_cons]
      rw [ih 0 0 hbpl]
      simp only [Nat.zero_add]
      rw [show inCur + (rest.length + 1) + (bpl - 1)
          = rest.length + (bpl - 1) + bpl by omega, Nat.add_div_right _ hbpl]
    · simp only [List.length_cons]
      rw [ih _ (inCur + 1) (by omega)]
      congr 1
      omega

/-- Every word `packLoop` emits lies in the signed 64-bit range. -/
theorem packLoop_words_range (b bpl : Nat) (hle : bpl * b ≤ 64) :
    ∀ (indices : List Nat) (acc inCur : Nat), inCur < bpl →
      acc < 2 ^ (inCur * b) → (∀ i ∈ indices, i < 2 ^ b) →
      ∀ w ∈ packLoop b bpl indices acc inCur, -(2 ^ 63) ≤ w ∧ w < 2 ^ 63 := by
  intro indices
  induction indices with
  | nil =>
    intro acc inCur hin hacc _ w hw
    unfold packLoop at hw
    split at hw
    · have hacc64 : acc < 2 ^ 64 := by
        have h1 : inCur * b ≤ 64 := le_trans (Nat.mul_le_mul_right b hin.le) hle
        exact lt_of_lt_of_le hacc (Nat.pow_le_pow_right (by norm_num) h1)
      simp only [List.mem_singleton] at hw
      exact hw ▸ toSigned64_range hacc64
    · simp at hw
  | cons idx rest ih =>
    intro acc inCur hin hacc hidx w hw
    have hidx0 : idx < 2 ^ b := hidx idx (by simp)
    have hidxr : ∀ i ∈ rest, i < 2 ^ b := fun i hi => hidx i (by simp [hi])
    have hacc' : acc ||| (idx <<< (inCur * b)) = acc + idx * 2 ^ (inCur * b) :=
      lor_shiftLeft_eq_add hacc
    have hlt' : acc + idx * 2 ^ (inCur * b) < 2 ^ ((inCur + 1) * b) := by
      have := acc_step_lt hacc hidx0
      rwa [show (inCur + 1) * b = inCur * b + b by ring]
    unfold packLoop at hw
    split at hw <;> rename_i hflush
    · rcases List.mem_cons.mp hw with hw | hw
      · have hle64 : (inCur + 1) * b ≤ 64 :=
          le_trans (Nat.mul_le_mul_right b (by omega)) hle
        have hlt64 : acc ||| (idx <<< (inCur * b)) < 2 ^ 64 := by
          rw [hacc']
          exact lt_of_lt_of_le hlt' (Nat.pow_le_pow_right (by norm_num) hle64)
        exact hw ▸ toSigned64_range hlt64
      · exact ih 0 0 (by omega) (by simp) hidxr w hw
    · exact ih _ (inCur + 1) (by omega) (by rwa [hacc']) hidxr w hw

/-- Closed form of the unpacking loop: the value at position `p` is a
shift-and-mask read of word `p / bpl` at in-word slot `p % bpl`. -/
theorem unpackLoop_closed (longs : List Int) (b bpl : Nat) (hbpl : 0 < bpl) :
    ∀ (n longIdx inCur : Nat), inCur < bpl →
      unpackLoop longs b bpl n longIdx inCur (nthLong longs longIdx)
        = (List.range n).map (fun p =>
            extractVal (nthLong longs (longIdx + (inCur + p) / bpl))
              (((inCur + p) % bpl) * b) b) := by
  intro n
  induction n with
  | zero => intro longIdx inCur _; rfl
  | succ m ih =>
    intro longIdx inCur hin
    rw [List.range_succ_eq_map]
    unfold unpackLoop
    split <;> rename_i hflush
    · have hcur : inCur + 1 = bpl := by omega
      rw [ih (longIdx + 1) 0 hbpl]
      simp only [List.map_cons, List.map_map]
      congr 1
      · simp [Nat.div_eq_of_lt hin, Nat.mod_eq_of_lt hin]
      · apply List.map_congr_left
        intro p _
        have hdiv : (inCur + (p + 1)) / bpl = p / bpl + 1 := by
          rw [show inCur + (p + 1) = p + bpl by omega, Nat.add_div_right _ hbpl]
        have hmod : (inCur + (p + 1)) % bpl = p % bpl := by
          rw [show inCur + (p + 1) = p + bpl by omega, Nat.add_mod_right]
        have hidx2 : longIdx + 1 + p / bpl = longIdx + (p / bpl + 1) := by omega
        simp only [Function.comp, Nat.succ_eq_add_one, Nat.zero_add, hdiv, hmod, hidx2]
    · rw [ih longIdx (inCur + 1) (by omega)]
      simp only [List.map_cons, List.map_map]
      congr 1
      · simp [Nat.div_eq_of_lt hin, Nat.mod_eq_of_lt hin]
      · apply List.map_congr_left
        intro p _
        have harith : inCur + 1 + p = inCur + (p + 1) := by omega
        simp [Function.comp, Nat.succ_eq_add_one, harith]

theorem nthLong_past_end {longs : List Int} {i : Nat} (h : longs.length ≤ i) :
    nthLong longs i = 0 := by
  unfold nthLong signedToUnsigned
  rw [List.get?_eq_none.mpr h]
  simp

theorem extractVal_zero (sh bits : Nat) : extractVal 0 sh bits = 0 := by
  simp [extractVal]

theorem sortStrings_cons (x : String) (l : List String) :
    sortStrings (x :: l) = insertSorted x (sortStrings l) := rfl

theorem insertSorted_comm (x y : String) :
    ∀ l, insertSorted x (insertSorted y l) = insertSorted y (insertSorted x l) := by
  intro l
  induction l with
  | nil =>
    simp only [insertSorted]
    rcases le_total x y with h | h
    · by_cases hxy : y ≤ x
      · have hxy' : x = y := le_antisymm h hxy
        subst hxy'; simp
      · simp [h, hxy]
    · by_cases hyx : x ≤ y
      · have hyx' : x = y := le_antisymm hyx h
        subst hyx'; simp
      · simp [h, hyx]
  | cons z l ih =>
    by_cases hyz : y ≤ z <;> by_cases hxz : x ≤ z
    · simp only [insertSorted, hyz, hxz, if_pos]
      rcases le_total x y with h | h
      · by_cases hyx : y ≤ x
        · have hxy' : x = y := le_antisymm h hyx
          subst hxy'; simp
        · simp [insertSorted, h, hyx, hyz, hxz]
      · by_cases hxy : x ≤ y
        · have hxy' : x = y := le_antisymm hxy h
          subst hxy'; simp
        · simp [insertSorted, h, hxy, hyz, hxz]
    · have hxy : ¬ x ≤ y := fun hc => hxz (le_trans hc hyz)
      simp [insertSorted, hyz, hxz, hxy]
    · have hyx : ¬ y ≤ x := fun hc => hyz (le_trans hc hxz)
      simp [insertSorted, hyz, hxz, hyx]
    · simp [insertSorted, hyz, hxz, ih]

theorem sortStrings_perm {l₁ l₂ : List String} (h : l₁.Perm l₂) :
    sortStrings l₁ = sortStrings l₂ := by
  induction h with
  | nil => rfl
  | cons x _ ih => rw [sortStrings_cons, sortStrings_cons, ih]
  | swap x y l => simp only [sortStrings_cons, insertSorted_comm]
  | trans _ _ ih₁ ih₂ => rw [ih₁, ih₂]

/-- Looking a key up in an association list with distinct keys is invariant
under permutation (the model of: equal dicts, different insertion order). -/
theorem lookup_perm {β : Type} {p q : List (String × β)} (h : p.Perm q) :
    (p.map Prod.fst).Nodup → ∀ k, List.lookup k p = List.lookup k q := by
  induction h with
  | nil => intro _ k; rfl
  | @cons a l₁ l₂ _ ih =>
    intro hnd k
    obtain ⟨a1, a2⟩ := a
    have hnd' : (l₁.map Prod.fst).Nodup := by
      simpa using (List.nodup_cons.mp (by simpa using hnd)).2
    rw [List.lookup_cons, List.lookup_cons]
    cases hbeq : k == a1
    · simp only [ih hnd' k]
    · rfl
  | @swap a b l =>
    intro hnd k
    obtain ⟨a1, a2⟩ := a
    obtain ⟨b1, b2⟩ := b
    have hne : b1 ≠ a1 := by
      have h' : (¬ b1 = a1 ∧ ∀ (x : β), (b1, x) ∉ l)
          ∧ (∀ (x : β), (a1, x) ∉ l) ∧ (List.map Prod.fst l).Nodup := by
        simpa using hnd
      exact h'.1.1
    rw [List.lookup_cons, List.lookup_cons, List.lookup_cons, List.lookup_cons]
    cases hka : k == a1 <;> cases hkb : k == b1 <;> simp [hka, hkb]
    exact absurd ((eq_of_beq hka).symm.trans (eq_of_beq hkb)) (fun h => hne h.symm)
  | trans h₁ h₂ ih₁ ih₂ =>
    intro hnd k
    rw [ih₁ hnd k, ih₂ (((h₁.map Prod.fst).nodup_iff).mp hnd) k]

theorem propsJoin_perm {p q : List (String × NbtTag)} (h : p.Perm q)
    (hnd : (p.map Prod.fst).Nodup) : propsJoin p = propsJoin q := by
  unfold propsJoin
  rw [sortStrings_perm (h.map Prod.fst)]
  congr 1
  apply List.map_congr_left
  intro k _
  rw [lookup_perm h hnd k]

/-- Two block descriptors with the same name and the same
property-name-to-value set (in any insertion order) canonicalize to the same
palette key. -/
theorem canonicalKey_eq_of_perm
    {e₁ e₂ : List (String × NbtTag)} {n₁ n₂ : NbtTag}
    (hn₁ : List.lookup "Name" e₁ = some n₁)
    (hn₂ : List.lookup "Name" e₂ = some n₂)
    (hname : tagStr n₁ = tagStr n₂)
    (hprops : (List.lookup "Properties" e₁ = none
        ∧ List.lookup "Properties" e₂ = none)
      ∨ (∃ p₁ p₂, List.lookup "Properties" e₁ = some (.compound p₁)
          ∧ List.lookup "Properties" e₂ = some (.compound p₂)
          ∧ p₁.Perm p₂ ∧ (p₁.map Prod.fst).Nodup)) :
    ∃ key, canonicalKey (.compound e₁) = .ok key
      ∧ canonicalKey (.compound e₂) = .ok key := by
  unfold canonicalKey getItemE hasKeyE
  rcases hprops with ⟨hp₁, hp₂⟩ | ⟨p₁, p₂, hp₁, hp₂, hperm, hnd⟩
  · refine ⟨tagStr n₁ ++ "[" ++ "]", ?_, ?_⟩
    · simp [hn₁, hp₁]
    · simp [hn₂, hp₂, hname]
  · refine ⟨tagStr n₁ ++ "[" ++ propsJoin p₁ ++ "]", ?_, ?_⟩
    · simp [hn₁, hp₁]
    · simp [hn₂, hp₂, hname, propsJoin_perm hperm hnd]

theorem Section.new_blocks (y : Int) :
    (Section.new y).blocks = List.replicate 4096 0 := rfl

theorem Section.new_blocks_length (y : Int) :
    (Section.new y).blocks.length = 4096 := by
  rw [Section.new_blocks, List.length_replicate]

/-- C1: for any list of indices and any bit width `4 ≤ bits ≤ 64` with every
index below `2^bits`, `unpack (pack indices bits) bits (len indices)` returns
the original indices; `pack` emits exactly
`ceil(len / floor(64/bits))` words; and every emitted word lies in the signed
64-bit range (values ≥ 2^63 having been wrapped to two's-complement). -/
theorem bitpacker_pack_unpack_roundtrip (indices : List Nat) (bits : Nat)
    (h4 : 4 ≤ bits) (h64 : bits ≤ 64) (hidx : ∀ i ∈ indices, i < 2 ^ bits) :
    BitPacker.unpack (BitPacker.pack indices bits) bits indices.length = indices
    ∧ (BitPacker.pack indices bits).length
        = (indices.length + 64 / bits - 1) / (64 / bits)
    ∧ ∀ w ∈ BitPacker.pack indices bits, -(2 ^ 63) ≤ w ∧ w < 2 ^ 63 := by
  have hnot : ¬ (bits < 4) := by omega
  have hbpl : 0 < 64 / bits := Nat.div_pos h64 (by omega)
  have hle : (64 / bits) * bits ≤ 64 := Nat.div_mul_le_self 64 bits
  unfold BitPacker.pack BitPacker.unpack
  simp only [if_neg hnot]
  refine ⟨?_, ?_, ?_⟩
  · exact packLoop_unpackLoop bits (64 / bits) (by omega) hbpl hle indices 0 0
      hbpl (by simp) hidx
  · rw [packLoop_length bits (64 / bits) hbpl indices 0 0 hbpl]
    congr 1
    omega
  · exact packLoop_words_range bits (64 / bits) hle indices 0 0 hbpl (by simp) hidx

theorem bitpacker_pack_unpack_roundtrip_witness :
    (4 ≤ 5 ∧ 5 ≤ 64 ∧ ∀ i ∈ [1, 2, 3, 30, 0, 17, 9, 31, 4, 5, 6, 7, 8, 11], i < 2 ^ 5)
    ∧ (BitPacker.unpack
          (BitPacker.pack [1, 2, 3, 30, 0, 17, 9, 31, 4, 5, 6, 7, 8, 11] 5) 5
          (List.length [1, 2, 3, 30, 0, 17, 9, 31, 4, 5, 6, 7, 8, 11])
          = [1, 2, 3, 30, 0, 17, 9, 31, 4, 5, 6, 7, 8, 11]
      ∧ (BitPacker.pack [1, 2, 3, 30, 0, 17, 9, 31, 4, 5, 6, 7, 8, 11] 5).length
          = (List.length [1, 2, 3, 30, 0, 17, 9, 31, 4, 5, 6, 7, 8, 11] + 64 / 5 - 1) / (64 / 5)
      ∧ ∀ w ∈ BitPacker.pack [1, 2, 3, 30, 0, 17, 9, 31, 4, 5, 6, 7, 8, 11] 5,
          -(2 ^ 63) ≤ w ∧ w < 2 ^ 63) :=
  ⟨⟨by decide, by decide, by decide⟩,
    bitpacker_pack_unpack_roundtrip [1, 2, 3, 30, 0, 17, 9, 31, 4, 5, 6, 7, 8, 11] 5
      (by decide) (by decide) (by decide)⟩

/-- C7: for `4 ≤ bits ≤ 64` and a word list shorter than
`ceil(count / floor(64/bits))`, `unpack` still returns exactly `count` values
(no error is raised: the embedding is a total function) and every value whose
position lies beyond the supplied words is `0`. -/
theorem bitpacker_unpack_missing_words (longs : List Int) (bits count : Nat)
    (h4 : 4 ≤ bits) (h64 : bits ≤ 64)
    (hshort : longs.length < (count + 64 / bits - 1) / (64 / bits)) :
    (BitPacker.unpack longs bits count).length = count
    ∧ ∀ p, p < count → longs.length * (64 / bits) ≤ p →
        (BitPacker.unpack longs bits count).get? p = some 0 := by
  have hnot : ¬ (bits < 4) := by omega
  have hbpl : 0 < 64 / bits := Nat.div_pos h64 (by omega)
  unfold BitPacker.unpack
  simp only [if_neg hnot]
  rw [unpackLoop_closed longs bits (64 / bits) hbpl count 0 0 hbpl]
  constructor
  · simp
  · intro p hp hpast
    have hdiv : longs.length ≤ p / (64 / bits) :=
      (Nat.le_div_iff_mul_le hbpl).mpr hpast
    rw [List.get?_map, List.get?_range hp]
    simp [nthLong_past_end hdiv, extractVal_zero]

theorem bitpacker_unpack_missing_words_witness :
    (4 ≤ 5 ∧ 5 ≤ 64
      ∧ List.length ([] : List Int) < (13 + 64 / 5 - 1) / (64 / 5))
    ∧ ((BitPacker.unpack ([] : List Int) 5 13).length = 13
      ∧ ∀ p, p < 13 → List.length ([] : List Int) * (64 / 5) ≤ p →
          (BitPacker.unpack ([] : List Int) 5 13).get? p = some 0) :=
  ⟨⟨by decide, by decide, by decide⟩,
    bitpacker_unpack_missing_words ([] : List Int) 5 13 (by decide) (by decide) (by decide)⟩

theorem lookup_append_self {β : Type} {d : List (String × β)} {k : String}
    (h : List.lookup k d = none) (v : β) :
    List.lookup k (d ++ [(k, v)]) = some v := by
  induction d with
  | nil => simp [List.lookup]
  | cons a d ih =>
    obtain ⟨a1, a2⟩ := a
    rw [List.cons_append, List.lookup_cons]
    rw [List.lookup_cons] at h
    cases hbeq : k == a1
    · rw [hbeq] at h
      simp only [ih h]
    · rw [hbeq] at h
      simp at h

/-- One in-range `set_block` call whose canonical key is already in the
palette map: the palette does not change and the existing index is written. -/
theorem set_block_ok_found (s : Section) (x y z : Int) (bd : NbtTag)
    (key : String) (i : Nat)
    (hkey : canonicalKey bd = .ok key)
    (hfound : List.lookup key s.palette_map = some i)
    (hlen : s.blocks.length = 4096)
    (hx : 0 ≤ x ∧ x < 16) (hy : 0 ≤ y ∧ y < 16) (hz : 0 ≤ z ∧ z < 16) :
    Section.set_block s x y z bd = .ok
      { y_index := s.y_index
        palette := s.palette
        palette_map := s.palette_map
        blocks := s.blocks.set (y * 256 + z * 16 + x).toNat i } := by
  have hneg : ¬ (y * 256 + z * 16 + x < 0) := by omega
  have hflat1 : y * 256 + z * 16 + x < 4096 := by omega
  unfold Section.set_block pyListSet
  rw [hkey]
  simp only [hfound, hneg, if_neg, hlen]
  rw [if_pos (by constructor <;> [omega; exact_mod_cast hflat1])]
  simp

/-- One in-range `set_block` call with a fresh canonical key: the descriptor
is appended to the palette and the fresh index is written. -/
theorem set_block_ok_new (s : Section) (x y z : Int) (bd : NbtTag)
    (key : String)
    (hkey : canonicalKey bd = .ok key)
    (hnew : List.lookup key s.palette_map = none)
    (hlen : s.blocks.length = 4096)
    (hx : 0 ≤ x ∧ x < 16) (hy : 0 ≤ y ∧ y < 16) (hz : 0 ≤ z ∧ z < 16) :
    Section.set_block s x y z bd = .ok
      { y_index := s.y_index
        palette := s.palette ++ [bd]
        palette_map := s.palette_map ++ [(key, s.palette.length)]
        blocks := s.blocks.set (y * 256 + z * 16 + x).toNat s.palette.length } := by
  have hneg : ¬ (y * 256 + z * 16 + x < 0) := by omega
  have hflat1 : y * 256 + z * 16 + x < 4096 := by omega
  unfold Section.set_block pyListSet
  rw [hkey]
  simp only [hnew, hneg, if_neg, hlen]
  rw [if_pos (by constructor <;> [omega; exact_mod_cast hflat1])]
  simp

/-- C3: two `set_block` calls whose descriptors share the same name and the
same property set (in any insertion order) canonicalize to one palette key,
so the pair of calls adds at most one palette entry: the second call leaves
the palette and palette map of the first call's result unchanged and writes
the very index the first call wrote. -/
theorem set_block_palette_idempotent
    (s : Section) (x₁ y₁ z₁ x₂ y₂ z₂ : Int)
    (e₁ e₂ : List (String × NbtTag)) (n₁ n₂ : NbtTag)
    (hlen : s.blocks.length = 4096)
    (hx₁ : 0 ≤ x₁ ∧ x₁ < 16) (hy₁ : 0 ≤ y₁ ∧ y₁ < 16) (hz₁ : 0 ≤ z₁ ∧ z₁ < 16)
    (hx₂ : 0 ≤ x₂ ∧ x₂ < 16) (hy₂ : 0 ≤ y₂ ∧ y₂ < 16) (hz₂ : 0 ≤ z₂ ∧ z₂ < 16)
    (hn₁ : List.lookup "Name" e₁ = some n₁)
    (hn₂ : List.lookup "Name" e₂ = some n₂)
    (hname : tagStr n₁ = tagStr n₂)
    (hprops : (List.lookup "Properties" e₁ = none
        ∧ List.lookup "Properties" e₂ = none)
      ∨ (∃ p₁ p₂, List.lookup "Properties" e₁ = some (.compound p₁)
          ∧ List.lookup "Properties" e₂ = some (.compound p₂)
          ∧ p₁.Perm p₂ ∧ (p₁.map Prod.fst).Nodup)) :
    ∃ s₁ s₂ i,
      Section.set_block s x₁ y₁ z₁ (.compound e₁) = .ok s₁
      ∧ Section.set_block s₁ x₂ y₂ z₂ (.compound e₂) = .ok s₂
      ∧ s₂.palette = s₁.palette
      ∧ s₂.palette_map = s₁.palette_map
      ∧ s₁.palette.length ≤ s.palette.length + 1
      ∧ s₁.blocks.get? (y₁ * 256 + z₁ * 16 + x₁).toNat = some i
      ∧ s₂.blocks = s₁.blocks.set (y₂ * 256 + z₂ * 16 + x₂).toNat i := by
  obtain ⟨key, hk₁, hk₂⟩ := canonicalKey_eq_of_perm hn₁ hn₂ hname hprops
  have hflat₁ : (y₁ * 256 + z₁ * 16 + x₁).toNat < 4096 := by omega
  cases hcase : List.lookup key s.palette_map with
  | some i =>
    have h₁ := set_block_ok_found s x₁ y₁ z₁ (.compound e₁) key i hk₁ hcase hlen
      hx₁ hy₁ hz₁
    have hlen₁ : (s.blocks.set (y₁ * 256 + z₁ * 16 + x₁).toNat i).length = 4096 := by
      rw [List.length_set, hlen]
    have h₂ := set_block_ok_found
      ({ y_index := s.y_index, palette := s.palette, palette_map := s.palette_map,
         blocks := s.blocks.set (y₁ * 256 + z₁ * 16 + x₁).toNat i } : Section)
      x₂ y₂ z₂ (.compound e₂) key i hk₂ hcase hlen₁ hx₂ hy₂ hz₂
    refine ⟨_, _, i, h₁, h₂, rfl, rfl, Nat.le_succ _, ?_, rfl⟩
    rw [List.get?_eq_getElem?]
    exact List.getElem?_set_self (by rw [hlen]; exact hflat₁)
  | none =>
    have h₁ := set_block_ok_new s x₁ y₁ z₁ (.compound e₁) key hk₁ hcase hlen
      hx₁ hy₁ hz₁
    have hlen₁ : (s.blocks.set (y₁ * 256 + z₁ * 16 + x₁).toNat
        s.palette.length).length = 4096 := by
      rw [List.length_set, hlen]
    have hfound₁ : List.lookup key
        (s.palette_map ++ [(key, s.palette.length)]) = some s.palette.length :=
      lookup_append_self hcase s.palette.length
    have h₂ := set_block_ok_found
      ({ y_index := s.y_index, palette := s.palette ++ [.compound e₁],
         palette_map := s.palette_map ++ [(key, s.palette.length)],
         blocks := s.blocks.set (y₁ * 256 + z₁ * 16 + x₁).toNat s.palette.length }
        : Section)
      x₂ y₂ z₂ (.compound e₂) key s.palette.length hk₂ hfound₁ hlen₁ hx₂ hy₂ hz₂
    refine ⟨_, _, s.palette.length, h₁, h₂, rfl, rfl, ?_, ?_, rfl⟩
    · simp
    · rw [List.get?_eq_getElem?]
      exact List.getElem?_set_self (by rw [hlen]; exact hflat₁)

theorem set_block_palette_idempotent_witness :
    ((Section.new 0).blocks.length = 4096
      ∧ List.lookup "Name"
          [("Name", NbtTag.string "minecraft:oak_log"),
           ("Properties", NbtTag.compound
             [("a", NbtTag.string "1"), ("b", NbtTag.string "2")])]
          = some (NbtTag.string "minecraft:oak_log")
      ∧ List.lookup "Name"
          [("Name", NbtTag.string "minecraft:oak_log"),
           ("Properties", NbtTag.compound
             [("b", NbtTag.string "2"), ("a", NbtTag.string "1")])]
          = some (NbtTag.string "minecraft:oak_log"))
    ∧ (∃ s₁ s₂ i,
      Section.set_block (Section.new 0) 0 0 0
          (.compound [("Name", NbtTag.string "minecraft:oak_log"),
            ("Properties", NbtTag.compound
              [("a", NbtTag.string "1"), ("b", NbtTag.string "2")])]) = .ok s₁
      ∧ Section.set_block s₁ 1 2 3
          (.compound [("Name", NbtTag.string "minecraft:oak_log"),
            ("Properties", NbtTag.compound
              [("b", NbtTag.string "2"), ("a", NbtTag.string "1")])]) = .ok s₂
      ∧ s₂.palette = s₁.palette
      ∧ s₂.palette_map = s₁.palette_map
      ∧ s₁.palette.length ≤ (Section.new 0).palette.length + 1
      ∧ s₁.blocks.get? ((0 : Int) * 256 + 0 * 16 + 0).toNat = some i
      ∧ s₂.blocks = s₁.blocks.set ((2 : Int) * 256 + 3 * 16 + 1).toNat i) :=
  ⟨⟨Section.new_blocks_length 0, by rfl, by rfl⟩,
    set_block_palette_idempotent (Section.new 0) 0 0 0 1 2 3
      [("Name", NbtTag.string "minecraft:oak_log"),
       ("Properties", NbtTag.compound
         [("a", NbtTag.string "1"), ("b", NbtTag.string "2")])]
      [("Name", NbtTag.string "minecraft:oak_log"),
       ("Properties", NbtTag.compound
         [("b", NbtTag.string "2"), ("a", NbtTag.string "1")])]
      (NbtTag.string "minecraft:oak_log") (NbtTag.string "minecraft:oak_log")
      (Section.new_blocks_length 0)
      ⟨by decide, by decide⟩ ⟨by decide, by decide⟩ ⟨by decide, by decide⟩
      ⟨by decide, by decide⟩ ⟨by decide, by decide⟩ ⟨by decide, by decide⟩
      (by rfl) (by rfl) (by rfl)
      (Or.inr ⟨[("a", NbtTag.string "1"), ("b", NbtTag.string "2")],
        [("b", NbtTag.string "2"), ("a", NbtTag.string "1")],
        by rfl, by rfl,
        List.Perm.swap ("b", NbtTag.string "2") ("a", NbtTag.string "1") [],
        by decide⟩)⟩

theorem hasKeyE_of_getItemE {t : NbtTag} {k : String} {v : NbtTag}
    (h : getItemE t k = .ok v) : hasKeyE t k = .ok true := by
  cases t with
  | compound e =>
    have h' : (match List.lookup k e with
        | some w => (Except.ok w : Except String NbtTag)
        | none => Except.error "KeyError") = Except.ok v := h
    cases hl : List.lookup k e with
    | none => rw [hl] at h'; exact absurd h' (by simp)
    | some w => simp [hasKeyE, hl]
  | byte a => exact absurd h (by simp [getItemE])
  | int a => exact absurd h (by simp [getItemE])
  | long a => exact absurd h (by simp [getItemE])
  | string a => exact absurd h (by simp [getItemE])
  | list a => exact absurd h (by simp [getItemE])
  | longArray a => exact absurd h (by simp [getItemE])

theorem pyListGet_replicate (flat : Int) (h0 : 0 ≤ flat) (h1 : flat < 4096) :
    pyListGet (List.replicate 4096 (0 : Nat)) flat = .ok 0 := by
  unfold pyListGet
  have hneg : ¬ (flat < 0) := by omega
  simp only [hneg, if_neg, List.length_replicate]
  rw [dif_pos ⟨h0, by exact_mod_cast h1⟩]
  exact congrArg Except.ok (List.get_replicate 0 _)

/-- C2: a `Section` whose palette has exactly one entry serializes with no
`data` field under `block_states`; and `Section.from_nbt` of a section tag
whose `block_states` has a palette but no `data` field yields the all-zero
block array, every cell resolving to palette index 0. -/
theorem section_single_entry_no_data
    (s : Section) (tag bs : NbtTag) (t : Section)
    (hs : s.palette.length = 1)
    (hbs : getItemE tag "block_states" = .ok bs)
    (hpal : hasKeyE bs "palette" = .ok true)
    (hdata : hasKeyE bs "data" = .ok false)
    (ht : Section.from_nbt tag = .ok t) :
    (∃ e, getItemE (Section.to_nbt s) "block_states" = .ok (.compound e)
        ∧ List.lookup "data" e = none)
    ∧ t.blocks = List.replicate 4096 0
    ∧ (∀ x y z : Int, 0 ≤ x ∧ x < 16 → 0 ≤ y ∧ y < 16 → 0 ≤ z ∧ z < 16 →
        Section.get_block_id t x y z = .ok 0) := by
  have hnot : ¬ (1 < s.palette.length) := by omega
  have hblocks : t.blocks = List.replicate 4096 0 := by
    unfold Section.from_nbt at ht
    split at ht
    · exact absurd ht (by simp)
    split at ht
    · exact absurd ht (by simp)
    split at ht
    · exact absurd ht (by simp)
    rename_i hasBs hbseq
    have hbst : hasBs = true := by
      rw [hasKeyE_of_getItemE hbs] at hbseq
      exact (Except.ok.injEq _ _ ▸ hbseq).symm
    subst hbst
    rw [if_pos rfl] at ht
    rw [hbs] at ht
    simp only at ht
    split at ht
    · exact absurd ht (by simp)
    rename_i hasPal hpaleq
    split at ht
    · exact absurd ht (by simp)
    rename_i palpm pal pm hload
    split at ht
    · exact absurd ht (by simp)
    rename_i hasData hdataeq
    have hdf : hasData = false := by
      rw [hdata] at hdataeq
      exact (Except.ok.injEq _ _ ▸ hdataeq).symm
    subst hdf
    rw [if_neg (by simp)] at ht
    cases ht
    rfl
  refine ⟨⟨[("palette", .list s.palette)], ?_, by rfl⟩, hblocks, ?_⟩
  · unfold Section.to_nbt getItemE
    rw [if_neg hnot]
    rfl
  · intro x y z hx hy hz
    unfold Section.get_block_id
    rw [hblocks]
    exact pyListGet_replicate _ (by omega) (by omega)

theorem section_single_entry_no_data_witness :
    ((Section.new 0).palette.length = 1
      ∧ getItemE sampleSectionTagNoData "block_states" = .ok sampleSectionBsNoData
      ∧ hasKeyE sampleSectionBsNoData "palette" = .ok true
      ∧ hasKeyE sampleSectionBsNoData "data" = .ok false
      ∧ Section.from_nbt sampleSectionTagNoData = .ok sampleSectionNoData)
    ∧ ((∃ e, getItemE (Section.to_nbt (Section.new 0)) "block_states"
          = .ok (.compound e) ∧ List.lookup "data" e = none)
      ∧ sampleSectionNoData.blocks = List.replicate 4096 0
      ∧ (∀ x y z : Int, 0 ≤ x ∧ x < 16 → 0 ≤ y ∧ y < 16 → 0 ≤ z ∧ z < 16 →
          Section.get_block_id sampleSectionNoData x y z = .ok 0)) :=
  ⟨⟨rfl, rfl, rfl, rfl, rfl⟩,
    section_single_entry_no_data (Section.new 0) sampleSectionTagNoData
      sampleSectionBsNoData sampleSectionNoData rfl rfl rfl rfl rfl⟩

theorem pyListGet_ok {α : Type} (l : List α) (flat : Int) (v : α)
    (h0 : 0 ≤ flat) (hv : l.get? flat.toNat = some v) :
    pyListGet l flat = .ok v := by
  obtain ⟨hlt, hget⟩ := List.get?_eq_some.mp hv
  unfold pyListGet
  have hneg : ¬ (flat < 0) := by omega
  simp only [if_neg hneg]
  rw [dif_pos ⟨h0, by omega⟩, ← hget]

theorem nameAt_ok {s : Section} {i : Nat} {nm : String}
    (h : s.nameAt i = .ok nm) :
    ∃ hp : i < s.palette.length, ∃ nt,
      getItemE (s.palette.get ⟨i, hp⟩) "Name" = .ok nt ∧ tagStr nt = nm := by
  unfold Section.nameAt at h
  cases hg : s.palette.get? i with
  | none => rw [hg] at h; exact absurd h (by simp)
  | some t =>
    rw [hg] at h
    have h' : (match getItemE t "Name" with
        | .error e => (.error e : Except String String)
        | .ok nt => .ok (tagStr nt)) = .ok nm := h
    obtain ⟨hlt, hget⟩ := List.get?_eq_some.mp hg
    cases hn : getItemE t "Name" with
    | error e => rw [hn] at h'; exact absurd h' (by simp)
    | ok nt =>
      rw [hn] at h'
      have hnm : tagStr nt = nm := by
        have := (Except.ok.injEq _ _ ▸ h')
        exact this
      exact ⟨hlt, nt, by rw [hget]; exact hn, hnm⟩

theorem scanSectionColumn_cons (sec : Section) (sIdx x z y : Int) (ys : List Int) :
    scanSectionColumn sec sIdx x z (y :: ys)
      = match Section.get_block_id sec x y z with
        | .error e => .error e
        | .ok blockIdx =>
          if h : blockIdx < sec.palette.length then
            match getItemE (sec.palette.get ⟨blockIdx, h⟩) "Name" with
            | .error e => .error e
            | .ok nameTag =>
              if tagStr nameTag ≠ "minecraft:air" then .ok (some (sIdx * 16 + y))
              else scanSectionColumn sec sIdx x z ys
          else scanSectionColumn sec sIdx x z ys := rfl

/-- Scanning a column whose every cell either carries an out-of-range palette
index (skipped by the guard at line 256) or resolves to air finds nothing. -/
theorem scanSectionColumn_skip (sec : Section) (sIdx x z : Int)
    (hlen : sec.blocks.length = 4096)
    (hx : 0 ≤ x ∧ x < 16) (hz : 0 ≤ z ∧ z < 16) :
    ∀ ys : List Int, (∀ y ∈ ys, 0 ≤ y ∧ y < 16) →
      (∀ y ∈ ys, ∀ i, sec.blocks.get? ((y * 256 + z * 16 + x).toNat) = some i →
        sec.palette.length ≤ i ∨ sec.nameAt i = .ok "minecraft:air") →
      scanSectionColumn sec sIdx x z ys = .ok none := by
  intro ys
  induction ys with
  | nil => intro _ _; rfl
  | cons y ys ih =>
    intro hyr hcell
    have hy := hyr y (by simp)
    have hflat0 : 0 ≤ y * 256 + z * 16 + x := by omega
    have hflatlt : (y * 256 + z * 16 + x).toNat < sec.blocks.length := by omega
    obtain ⟨v, hv⟩ : ∃ v,
        sec.blocks.get? ((y * 256 + z * 16 + x).toNat) = some v :=
      ⟨_, List.get?_eq_get hflatlt⟩
    have hid : Section.get_block_id sec x y z = .ok v :=
      pyListGet_ok _ _ _ hflat0 hv
    rw [scanSectionColumn_cons]
    simp only [hid]
    have ihr := ih (fun y hy => hyr y (by simp [hy]))
      (fun y hy => hcell y (by simp [hy]))
    rcases hcell y (by simp) v hv with hout | hair
    · rw [dif_neg (by omega)]
      exact ihr
    · obtain ⟨hp, nt, hnt, hns⟩ := nameAt_ok hair
      rw [dif_pos hp]
      simp only [hnt]
      rw [if_neg (by simp [hns])]
      exact ihr

/-- A scan of a concatenated column list proceeds to the tail when the head
part finds nothing. -/
theorem scanSectionColumn_append (sec : Section) (sIdx x z : Int)
    (ys zs : List Int) (h : scanSectionColumn sec sIdx x z ys = .ok none) :
    scanSectionColumn sec sIdx x z (ys ++ zs)
      = scanSectionColumn sec sIdx x z zs := by
  induction ys with
  | nil => rfl
  | cons y ys ih =>
    rw [scanSectionColumn_cons] at h
    rw [List.cons_append, scanSectionColumn_cons]
    cases hb : Section.get_block_id sec x y z with
    | error e => simp only [hb] at h; exact absurd h (by simp)
    | ok blockIdx =>
      simp only [hb] at h ⊢
      by_cases hp : blockIdx < sec.palette.length
      · rw [dif_pos hp] at h ⊢
        cases hn : getItemE (sec.palette.get ⟨blockIdx, hp⟩) "Name" with
        | error e => simp only [hn] at h; exact absurd h (by simp)
        | ok nt =>
          simp only [hn] at h ⊢
          by_cases hne : tagStr nt ≠ "minecraft:air"
          · rw [if_pos hne] at h; exact absurd h (by simp)
          · rw [if_neg hne] at h ⊢
            exact ih h
      · rw [dif_neg hp] at h ⊢
        exact ih h

theorem mem_insertLeBy {α : Type} (le : α → α → Bool) (x a : α) :
    ∀ l, a ∈ insertLeBy le x l ↔ a = x ∨ a ∈ l := by
  intro l
  induction l with
  | nil => simp [insertLeBy]
  | cons y ys ih =>
    unfold insertLeBy
    split
    · simp [List.mem_cons]
    · simp only [List.mem_cons, ih]
      tauto

theorem mem_sortIntsAsc (a : Int) : ∀ l, a ∈ sortIntsAsc l ↔ a ∈ l := by
  intro l
  induction l with
  | nil => simp [sortIntsAsc]
  | cons x xs ih =>
    have hcons : sortIntsAsc (x :: xs) = insertLeBy (fun a b => decide (a ≤ b)) x (sortIntsAsc xs) := rfl
    rw [hcons, mem_insertLeBy, ih, List.mem_cons]

/-- Scanning sections whose every cell is out-of-range or air yields no hit. -/
theorem scanSections_none (c : Chunk) (x z : Int)
    (hx : 0 ≤ x ∧ x < 16) (hz : 0 ≤ z ∧ z < 16)
    (hall : ∀ p ∈ c.sections, p.2.blocks.length = 4096
      ∧ ∀ flat : Nat, ∀ i, p.2.blocks.get? flat = some i →
          p.2.palette.length ≤ i ∨ p.2.nameAt i = .ok "minecraft:air") :
    ∀ ks : List Int, (∀ k ∈ ks, (List.lookup k c.sections).isSome) →
      scanSections c x z ks = .ok none := by
  intro ks
  induction ks with
  | nil => intro _; rfl
  | cons k ks ih =>
    intro hmem
    obtain ⟨sec, hsec⟩ := Option.isSome_iff_exists.mp (hmem k (by simp))
    have hmemp : (k, sec) ∈ c.sections := by
      obtain ⟨l₁, l₂, heq, _⟩ := List.lookup_eq_some_iff.mp hsec
      rw [heq]; simp
    obtain ⟨hlen, hcells⟩ := hall (k, sec) hmemp
    unfold scanSections
    rw [hsec]
    simp only [Option.getD_some]
    rw [scanSectionColumn_skip sec k x z hlen hx hz ydesc
      (by decide) (fun y _ i hvi => hcells _ i hvi)]
    exact ih (fun k hk => hmem k (by simp [hk]))

theorem scanSections_cons (c : Chunk) (x z k : Int) (ks : List Int) :
    scanSections c x z (k :: ks)
      = match scanSectionColumn ((List.lookup k c.sections).getD (Section.new 0))
          k x z ydesc with
        | .error e => .error e
        | .ok (some r) => .ok (some r)
        | .ok none => scanSections c x z ks := rfl

/-- C4: a chunk whose only section sits at section-Y 3 with its single
non-air cell at local (0,0,0) answers the height query at (0,0) with
`3*16 + 0 = 48`; and a chunk none of whose cells resolves to a non-air name
(in particular a chunk with no sections at all) answers with the floor
sentinel -64. -/
theorem chunk_highest_block_query (c₁ : Chunk) (s : Section) (nm : String)
    (c₂ : Chunk) (x₂ z₂ : Int)
    (h₁ : c₁.sections = [(3, s)])
    (hlen : s.blocks.length = 4096)
    (hsolid : ∃ i, s.blocks.get? 0 = some i ∧ s.nameAt i = .ok nm)
    (hnm : nm ≠ "minecraft:air")
    (hair : ∀ flat : Nat, flat ≠ 0 → ∀ i, s.blocks.get? flat = some i →
        s.nameAt i = .ok "minecraft:air")
    (hx₂ : 0 ≤ x₂ ∧ x₂ < 16) (hz₂ : 0 ≤ z₂ ∧ z₂ < 16)
    (hall : ∀ p ∈ c₂.sections, p.2.blocks.length = 4096
      ∧ ∀ flat : Nat, ∀ i, p.2.blocks.get? flat = some i →
          p.2.palette.length ≤ i ∨ p.2.nameAt i = .ok "minecraft:air") :
    Chunk.get_highest_block c₁ 0 0 = .ok 48
    ∧ Chunk.get_highest_block c₂ x₂ z₂ = .ok (-64) := by
  constructor
  · obtain ⟨i0, hv0, hn0⟩ := hsolid
    have hcol : scanSectionColumn s 3 0 0 ydesc = .ok (some (3 * 16 + 0)) := by
      have hskip : scanSectionColumn s 3 0 0
          [15, 14, 13, 12, 11, 10, 9, 8, 7, 6, 5, 4, 3, 2, 1] = .ok none := by
        apply scanSectionColumn_skip s 3 0 0 hlen (by norm_num) (by norm_num)
        · decide
        · intro y hy i hvi
          right
          have hy1 : 1 ≤ y ∧ y ≤ 15 := by fin_cases hy <;> norm_num
          exact hair _ (by omega) i hvi
      have hyd : ydesc
          = [15, 14, 13, 12, 11, 10, 9, 8, 7, 6, 5, 4, 3, 2, 1] ++ [0] := rfl
      rw [hyd, scanSectionColumn_append _ _ _ _ _ _ hskip, scanSectionColumn_cons]
      have hid : Section.get_block_id s 0 0 0 = .ok i0 :=
        pyListGet_ok _ _ _ (by norm_num) hv0
      simp only [hid]
      obtain ⟨hp, nt, hnt, hns⟩ := nameAt_ok hn0
      rw [dif_pos hp]
      simp only [hnt]
      rw [if_pos (by rw [hns]; exact hnm)]
    unfold Chunk.get_highest_block
    rw [h₁]
    have hkeys : (sortIntsAsc (([(3, s)] : List (Int × Section)).map Prod.fst)).reverse
        = [3] := rfl
    rw [hkeys, scanSections_cons, h₁]
    simp only [List.lookup_cons_self, Option.getD_some, hcol]
    exact congrArg Except.ok (by norm_num)
  · unfold Chunk.get_highest_block
    rw [scanSections_none c₂ x₂ z₂ hx₂ hz₂ hall _ ?_]
    · intro k hk
      rw [List.mem_reverse, mem_sortIntsAsc] at hk
      rw [List.lookup_isSome_iff]
      obtain ⟨p, hp, hfst⟩ := List.mem_map.mp hk
      exact ⟨p, hp, by simp [hfst]⟩

theorem sparseSampleSection_len : sparseSampleSection.blocks.length = 4096 := by
  show ((List.replicate 4096 (0 : Nat)).set 0 1).length = 4096
  rw [List.length_set, List.length_replicate]

theorem sparseSampleSection_cell0 :
    sparseSampleSection.blocks.get? 0 = some 1 := by
  show ((List.replicate 4096 (0 : Nat)).set 0 1).get? 0 = some 1
  rw [List.get?_eq_getElem?]
  exact List.getElem?_set_self (by rw [List.length_replicate]; omega)

theorem sparseSampleSection_air (flat : Nat) (hne : flat ≠ 0) (i : Nat)
    (hvi : sparseSampleSection.blocks.get? flat = some i) :
    sparseSampleSection.nameAt i = .ok "minecraft:air" := by
  have hvi' : ((List.replicate 4096 (0 : Nat)).set 0 1).get? flat = some i := hvi
  rw [List.get?_eq_getElem?, List.getElem?_set_ne (fun h => hne h.symm),
    List.getElem?_replicate] at hvi'
  by_cases hlt : flat < 4096
  · rw [if_pos hlt] at hvi'
    have hi : i = 0 := by
      have := (Option.some.injEq _ _ ▸ hvi')
      omega
    subst hi
    rfl
  · rw [if_neg hlt] at hvi'
    exact absurd hvi' (by simp)

theorem chunk_highest_block_query_witness :
    (sparseSampleChunk.sections = [(3, sparseSampleSection)]
      ∧ sparseSampleSection.blocks.length = 4096
      ∧ (∃ i, sparseSampleSection.blocks.get? 0 = some i
          ∧ sparseSampleSection.nameAt i = .ok "minecraft:stone")
      ∧ "minecraft:stone" ≠ "minecraft:air"
      ∧ (∀ flat : Nat, flat ≠ 0 → ∀ i,
          sparseSampleSection.blocks.get? flat = some i →
            sparseSampleSection.nameAt i = .ok "minecraft:air")
      ∧ ((0 : Int) ≤ 0 ∧ (0 : Int) < 16)
      ∧ (∀ p ∈ (Chunk.new 0 0).sections, p.2.blocks.length = 4096
          ∧ ∀ flat : Nat, ∀ i, p.2.blocks.get? flat = some i →
              p.2.palette.length ≤ i ∨ p.2.nameAt i = .ok "minecraft:air"))
    ∧ (Chunk.get_highest_block sparseSampleChunk 0 0 = .ok 48
      ∧ Chunk.get_highest_block (Chunk.new 0 0) 0 0 = .ok (-64)) :=
  ⟨⟨rfl, sparseSampleSection_len,
      ⟨1, sparseSampleSection_cell0, rfl⟩, by decide,
      sparseSampleSection_air, ⟨by norm_num, by norm_num⟩,
      by intro p hp; exact absurd hp (by simp [Chunk.new])⟩,
    chunk_highest_block_query sparseSampleChunk sparseSampleSection
      "minecraft:stone" (Chunk.new 0 0) 0 0 rfl sparseSampleSection_len
      ⟨1, sparseSampleSection_cell0, rfl⟩ (by decide)
      sparseSampleSection_air ⟨by norm_num, by norm_num⟩ ⟨by norm_num, by norm_num⟩
      (by intro p hp; exact absurd hp (by simp [Chunk.new]))⟩

/-- C8 (amended): an out-of-range palette index raises no error anywhere;
`Chunk.get_highest_block` silently skips every cell whose index is at or
beyond the palette length (line 256), so a chunk whose cells are all
out-of-range or air still answers with the sentinel -64, even when some cell
does carry an out-of-range index. -/
theorem out_of_range_palette_index_skipped (c : Chunk) (x z : Int)
    (hx : 0 ≤ x ∧ x < 16) (hz : 0 ≤ z ∧ z < 16)
    (hall : ∀ p ∈ c.sections, p.2.blocks.length = 4096
      ∧ ∀ flat : Nat, ∀ i, p.2.blocks.get? flat = some i →
          p.2.palette.length ≤ i ∨ p.2.nameAt i = .ok "minecraft:air")
    (hoor : ∃ p ∈ c.sections, ∃ flat : Nat, ∃ i,
        p.2.blocks.get? flat = some i ∧ p.2.palette.length ≤ i) :
    Chunk.get_highest_block c x z = .ok (-64) := by
  unfold Chunk.get_highest_block
  rw [scanSections_none c x z hx hz hall _ ?_]
  intro k hk
  rw [List.mem_reverse, mem_sortIntsAsc] at hk
  rw [List.lookup_isSome_iff]
  obtain ⟨p, hp, hfst⟩ := List.mem_map.mp hk
  exact ⟨p, hp, by simp [hfst]⟩

theorem oorSampleSection_cell5 :
    oorSampleSection.blocks.get? 5 = some 7 := by
  show ((List.replicate 4096 (0 : Nat)).set 5 7).get? 5 = some 7
  rw [List.get?_eq_getElem?]
  exact List.getElem?_set_self (by rw [List.length_replicate]; omega)

theorem oorSample_hall :
    ∀ p ∈ oorSampleChunk.sections, p.2.blocks.length = 4096
      ∧ ∀ flat : Nat, ∀ i, p.2.blocks.get? flat = some i →
          p.2.palette.length ≤ i ∨ p.2.nameAt i = .ok "minecraft:air" := by
  intro p hp
  have hp' : p = (2, oorSampleSection) := by
    simpa [oorSampleChunk] using hp
  subst hp'
  constructor
  · show ((List.replicate 4096 (0 : Nat)).set 5 7).length = 4096
    rw [List.length_set, List.length_replicate]
  · intro flat i hvi
    by_cases hfl : flat = 5
    · subst hfl
      rw [oorSampleSection_cell5] at hvi
      have hi : i = 7 := by
        have := (Option.some.injEq _ _ ▸ hvi)
        omega
      subst hi
      left
      decide
    · have hvi' : ((List.replicate 4096 (0 : Nat)).set 5 7).get? flat = some i := hvi
      rw [List.get?_eq_getElem?, List.getElem?_set_ne (fun h => hfl h.symm),
        List.getElem?_replicate] at hvi'
      by_cases hlt : flat < 4096
      · rw [if_pos hlt] at hvi'
        have hi : i = 0 := by
          have := (Option.some.injEq _ _ ▸ hvi')
          omega
        subst hi
        right
        rfl
      · rw [if_neg hlt] at hvi'
        exact absurd hvi' (by simp)

theorem out_of_range_palette_index_skipped_witness :
    (((0 : Int) ≤ 0 ∧ (0 : Int) < 16)
      ∧ (∀ p ∈ oorSampleChunk.sections, p.2.blocks.length = 4096
          ∧ ∀ flat : Nat, ∀ i, p.2.blocks.get? flat = some i →
              p.2.palette.length ≤ i ∨ p.2.nameAt i = .ok "minecraft:air")
      ∧ (∃ p ∈ oorSampleChunk.sections, ∃ flat : Nat, ∃ i,
          p.2.blocks.get? flat = some i ∧ p.2.palette.length ≤ i))
    ∧ Chunk.get_highest_block oorSampleChunk 0 0 = .ok (-64) :=
  ⟨⟨⟨by norm_num, by norm_num⟩, oorSample_hall,
      ⟨(2, oorSampleSection), by simp [oorSampleChunk], 5, 7,
        oorSampleSection_cell5, by decide⟩⟩,
    out_of_range_palette_index_skipped oorSampleChunk 0 0
      ⟨by norm_num, by norm_num⟩ ⟨by norm_num, by norm_num⟩ oorSample_hall
      ⟨(2, oorSampleSection), by simp [oorSampleChunk], 5, 7,
        oorSampleSection_cell5, by decide⟩⟩

/-- C8 counterexample: decoding a section whose packed data holds an
out-of-range palette index raises nothing (`from_nbt` returns `.ok`), so no
`FormatError` exists for this condition. -/
theorem formaterror_counterexample :
    Section.from_nbt oorSampleTag = .ok oorDecodedSection
    ∧ oorDecodedSection.blocks.get? 0 = some 1
    ∧ oorDecodedSection.palette.length = 1 :=
  ⟨rfl, rfl, rfl⟩

theorem fileWrite_pre_len (file : List Nat) (pos : Nat) :
    (file.take pos ++ List.replicate (pos - file.length) 0).length = pos := by
  simp [List.length_take]
  omega

/-- Bytes strictly before the write position (and inside the old file) are
untouched. -/
theorem fileWrite_get_lt {file : List Nat} {pos : Nat} {data : List Nat}
    {i : Nat} (h1 : i < pos) (h2 : i < file.length) :
    (fileWrite file pos data)[i]? = file[i]? := by
  unfold fileWrite
  rw [List.append_assoc, List.append_assoc]
  rw [List.getElem?_append_left (by simp [List.length_take]; omega)]
  exact List.getElem?_take_of_lt h1

/-- The written bytes land at the write position. -/
theorem fileWrite_get_in {file : List Nat} {pos : Nat} {data : List Nat}
    {i : Nat} (h : i < data.length) :
    (fileWrite file pos data)[pos + i]? = data[i]? := by
  unfold fileWrite
  rw [List.append_assoc]
  rw [List.getElem?_append_right (by rw [fileWrite_pre_len]; omega)]
  rw [fileWrite_pre_len]
  rw [List.getElem?_append_left (by omega)]
  congr 1
  omega

/-- Bytes at or past the end of the write are the old file's bytes. -/
theorem fileWrite_get_ge {file : List Nat} {pos : Nat} {data : List Nat}
    {i : Nat} (h : pos + data.length ≤ i) :
    (fileWrite file pos data)[i]? = file[i]? := by
  unfold fileWrite
  rw [List.append_assoc]
  rw [List.getElem?_append_right (by rw [fileWrite_pre_len]; omega)]
  rw [fileWrite_pre_len]
  rw [List.getElem?_append_right (by omega)]
  rw [List.getElem?_drop]
  by_cases hpl : pos + data.length ≤ file.length
  · congr 1
    omega
  · have h1 : file.length ≤ pos + data.length + (i - pos - data.length) := by omega
    have h2 : file.length ≤ i := by omega
    rw [List.getElem?_eq_none h1, List.getElem?_eq_none h2]

/-- The zero padding that aligns a past-the-end write. -/
theorem fileWrite_gap_zero {file : List Nat} {pos : Nat} {data : List Nat}
    {i : Nat} (h1 : file.length ≤ i) (h2 : i < pos) :
    (fileWrite file pos data)[i]? = some 0 := by
  unfold fileWrite
  rw [List.append_assoc, List.append_assoc]
  rw [List.getElem?_append_right (by simp [List.length_take]; omega)]
  rw [List.getElem?_append_left
    (by simp [List.length_take, List.length_replicate]; omega)]
  rw [List.getElem?_replicate_of_lt (by simp [List.length_take]; omega)]

theorem fileWrite_length (file : List Nat) (pos : Nat) (data : List Nat) :
    (fileWrite file pos data).length
      = max (pos + data.length) file.length := by
  unfold fileWrite
  simp [List.length_take]
  omega

theorem regionWritePayloadAt_get_in (file : List Nat) (offset : Nat)
    (payload : List Nat) {i : Nat} (h : i < payload.length) :
    (regionWritePayloadAt file offset payload)[offset * SECTOR_SIZE + i]?
      = payload[i]? := by
  unfold regionWritePayloadAt
  rw [fileWrite_get_lt (by omega) (by rw [fileWrite_length]; omega)]
  exact fileWrite_get_in h

theorem regionWritePayloadAt_get_lt (file : List Nat) (offset : Nat)
    (payload : List Nat) {i : Nat}
    (h1 : i < offset * SECTOR_SIZE) (h2 : i < file.length) :
    (regionWritePayloadAt file offset payload)[i]? = file[i]? := by
  unfold regionWritePayloadAt
  rw [fileWrite_get_lt (by omega) (by rw [fileWrite_length]; omega)]
  exact fileWrite_get_lt h1 h2

theorem regionWritePayloadAt_pad_zero (file : List Nat) (offset : Nat)
    (payload : List Nat) {i : Nat} (hge : payload.length ≤ i)
    (hlt : i < sectorsNeededFor payload.length * SECTOR_SIZE) :
    (regionWritePayloadAt file offset payload)[offset * SECTOR_SIZE + i]?
      = some 0 := by
  have hpad : i - payload.length
      < (SECTOR_SIZE - payload.length % SECTOR_SIZE) % SECTOR_SIZE := by
    have hlt' : i < ((payload.length + (4096 - 1)) / 4096) * 4096 := hlt
    show i - payload.length < (4096 - payload.length % 4096) % 4096
    omega
  unfold regionWritePayloadAt
  rw [show offset * SECTOR_SIZE + i
      = (offset * SECTOR_SIZE + payload.length) + (i - payload.length) by omega]
  rw [fileWrite_get_in (by rw [List.length_replicate]; exact hpad)]
  exact List.getElem?_replicate_of_lt hpad

/-- C5 (amended): when the previously recorded sector count still fits the
new payload, `save` writes at the previously recorded offset (the chunk is
not moved) but records the NEW sector count in the location entry (the code
at line 550 always stores `sectors_needed`, shrinking the recorded
allocation). -/
theorem region_save_reuses_offset_shrinks_count
    (file : List Nat) (oldLoc : Nat) (payload : List Nat)
    (hoff : 0 < oldLoc >>> 8)
    (hfit : sectorsNeededFor payload.length ≤ oldLoc &&& 255) :
    (regionWriteChunk file oldLoc payload).2
        = (oldLoc >>> 8) * 256 + sectorsNeededFor payload.length
    ∧ ∀ i : Nat, i < payload.length →
        (regionWriteChunk file oldLoc payload).1[(oldLoc >>> 8) * SECTOR_SIZE + i]?
          = payload[i]? := by
  unfold regionWriteChunk
  rw [if_pos ⟨hoff, hfit⟩]
  constructor
  · show ((oldLoc >>> 8) <<< 8) ||| sectorsNeededFor payload.length = _
    have hs : sectorsNeededFor payload.length < 2 ^ 8 :=
      lt_of_le_of_lt hfit (Nat.and_lt_two_pow oldLoc (by norm_num))
    rw [Nat.lor_comm, lor_shiftLeft_eq_add hs]
    have h256 : (2 : Nat) ^ 8 = 256 := by norm_num
    rw [h256]
    omega
  · intro i hi
    exact regionWritePayloadAt_get_in file (oldLoc >>> 8) payload hi

theorem region_save_reuses_offset_shrinks_count_witness :
    (0 < (2 * 256 + 3) >>> 8
      ∧ sectorsNeededFor (List.replicate 10 9).length ≤ (2 * 256 + 3) &&& 255)
    ∧ ((regionWriteChunk (List.replicate 20480 7) (2 * 256 + 3)
          (List.replicate 10 9)).2
        = ((2 * 256 + 3) >>> 8) * 256 + sectorsNeededFor (List.replicate 10 9).length
      ∧ ∀ i : Nat, i < (List.replicate 10 9).length →
          (regionWriteChunk (List.replicate 20480 7) (2 * 256 + 3)
            (List.replicate 10 9)).1[((2 * 256 + 3) >>> 8) * SECTOR_SIZE + i]?
            = (List.replicate 10 9)[i]?) :=
  ⟨⟨by decide, by decide⟩,
    region_save_reuses_offset_shrinks_count (List.replicate 20480 7)
      (2 * 256 + 3) (List.replicate 10 9) (by decide) (by decide)⟩

/-- C5 counterexample: with a previous allocation of 3 sectors at offset 2
and a new payload needing 1 sector, the location entry after the write is
`(2 << 8) | 1 = 513`: the recorded sector count is the new 1, not the old 3
the claim says is kept. -/
theorem region_save_keeps_old_count_counterexample :
    (regionWriteChunk (List.replicate 20480 7) (2 * 256 + 3)
        (List.replicate 10 9)).2 = 2 * 256 + 1
    ∧ (2 * 256 + 1 : Nat) ≠ 2 * 256 + 3 :=
  ⟨rfl, by decide⟩

/-- C6: a payload needing more sectors than previously recorded is
relocated to the sector-aligned end of file: zeros pad up to the boundary,
the payload lands there, the final partial sector is zero-padded, the
location entry records the new offset and count, and every byte of the old
file (in particular every other chunk's payload) is unchanged. -/
theorem region_save_growth_appends
    (file : List Nat) (oldLoc : Nat) (payload : List Nat)
    (hgrow : oldLoc &&& 255 < sectorsNeededFor payload.length)
    (hbyte : sectorsNeededFor payload.length < 256) :
    (regionWriteChunk file oldLoc payload).2
        = ((file.length + padTo file.length) / SECTOR_SIZE) * 256
          + sectorsNeededFor payload.length
    ∧ (file.length + padTo file.length) % SECTOR_SIZE = 0
    ∧ padTo file.length < SECTOR_SIZE
    ∧ (∀ i : Nat, i < payload.length →
        (regionWriteChunk file oldLoc payload).1[file.length + padTo file.length + i]?
          = payload[i]?)
    ∧ (∀ i : Nat, file.length ≤ i → i < file.length + padTo file.length →
        (regionWriteChunk file oldLoc payload).1[i]? = some 0)
    ∧ (∀ i : Nat, payload.length ≤ i →
        i < sectorsNeededFor payload.length * SECTOR_SIZE →
        (regionWriteChunk file oldLoc payload).1[file.length + padTo file.length + i]?
          = some 0)
    ∧ (∀ i : Nat, i < file.length →
        (regionWriteChunk file oldLoc payload).1[i]? = file[i]?) := by
  have halign : (file.length + padTo file.length) % SECTOR_SIZE = 0 := by
    show (file.length + (if file.length % 4096 ≠ 0
      then 4096 - file.length % 4096 else 0)) % 4096 = 0
    split <;> omega
  have hplt : padTo file.length < SECTOR_SIZE := by
    show (if file.length % 4096 ≠ 0 then 4096 - file.length % 4096 else 0) < 4096
    split <;> omega
  have hbase : ((file.length + padTo file.length) / SECTOR_SIZE) * SECTOR_SIZE
      = file.length + padTo file.length :=
    Nat.div_mul_cancel (Nat.dvd_of_mod_eq_zero halign)
  have hlen1 : (file ++ List.replicate (padTo file.length) 0).length
      = file.length + padTo file.length := by
    rw [List.length_append, List.length_replicate]
  unfold regionWriteChunk
  rw [if_neg (fun hc => absurd hc.2 (by omega))]
  refine ⟨?_, halign, hplt, ?_, ?_, ?_, ?_⟩
  · show (((file.length + padTo file.length) / SECTOR_SIZE) <<< 8)
        ||| sectorsNeededFor payload.length = _
    have hs : sectorsNeededFor payload.length < 2 ^ 8 := by
      have h256 : (2 : Nat) ^ 8 = 256 := by norm_num
      omega
    rw [Nat.lor_comm, lor_shiftLeft_eq_add hs]
    have h256 : (2 : Nat) ^ 8 = 256 := by norm_num
    rw [h256]
    omega
  · intro i hi
    have := regionWritePayloadAt_get_in
      (file ++ List.replicate (padTo file.length) 0)
      ((file.length + padTo file.length) / SECTOR_SIZE) payload hi
    rwa [hbase] at this
  · intro i hge hlt
    rw [regionWritePayloadAt_get_lt _ _ _ (by omega) (by omega)]
    rw [List.getElem?_append_right hge]
    exact List.getElem?_replicate_of_lt (by omega)
  · intro i hge hlt
    have := regionWritePayloadAt_pad_zero
      (file ++ List.replicate (padTo file.length) 0)
      ((file.length + padTo file.length) / SECTOR_SIZE) payload hge hlt
    rwa [hbase] at this
  · intro i hi
    rw [regionWritePayloadAt_get_lt _ _ _ (by omega) (by omega)]
    exact List.getElem?_append_left hi

theorem region_save_growth_appends_witness :
    (0 &&& 255 < sectorsNeededFor (List.replicate 10 9).length
      ∧ sectorsNeededFor (List.replicate 10 9).length < 256)
    ∧ ((regionWriteChunk (List.replicate 8192 0) 0 (List.replicate 10 9)).2
        = (((List.replicate 8192 (0 : Nat)).length
            + padTo (List.replicate 8192 (0 : Nat)).length) / SECTOR_SIZE) * 256
          + sectorsNeededFor (List.replicate 10 9).length
      ∧ ((List.replicate 8192 (0 : Nat)).length
          + padTo (List.replicate 8192 (0 : Nat)).length) % SECTOR_SIZE = 0
      ∧ padTo (List.replicate 8192 (0 : Nat)).length < SECTOR_SIZE
      ∧ (∀ i : Nat, i < (List.replicate 10 9).length →
          (regionWriteChunk (List.replicate 8192 0) 0
            (List.replicate 10 9)).1[(List.replicate 8192 (0 : Nat)).length
              + padTo (List.replicate 8192 (0 : Nat)).length + i]?
            = (List.replicate 10 9)[i]?)
      ∧ (∀ i : Nat, (List.replicate 8192 (0 : Nat)).length ≤ i →
          i < (List.replicate 8192 (0 : Nat)).length
            + padTo (List.replicate 8192 (0 : Nat)).length →
          (regionWriteChunk (List.replicate 8192 0) 0
            (List.replicate 10 9)).1[i]? = some 0)
      ∧ (∀ i : Nat, (List.replicate 10 9).length ≤ i →
          i < sectorsNeededFor (List.replicate 10 9).length * SECTOR_SIZE →
          (regionWriteChunk (List.replicate 8192 0) 0
            (List.replicate 10 9)).1[(List.replicate 8192 (0 : Nat)).length
              + padTo (List.replicate 8192 (0 : Nat)).length + i]?
            = some 0)
      ∧ (∀ i : Nat, i < (List.replicate 8192 (0 : Nat)).length →
          (regionWriteChunk (List.replicate 8192 0) 0
            (List.replicate 10 9)).1[i]?
            = (List.replicate 8192 (0 : Nat))[i]?)) :=
  ⟨⟨by decide, by decide⟩,
    region_save_growth_appends (List.replicate 8192 0) 0 (List.replicate 10 9)
      (by decide) (by decide)⟩

theorem pyListSet_ok {α : Type} (l : List α) (i : Int) (v : α)
    (h : -(l.length : Int) ≤ i ∧ i < l.length) :
    pyListSet l i v
      = .ok (l.set (if i < 0 then i + l.length else i).toNat v) := by
  unfold pyListSet
  rw [if_pos (by constructor <;> split <;> omega)]

theorem pyListSet_err {α : Type} (l : List α) (i : Int) (v : α)
    (h : i < -(l.length : Int) ∨ (l.length : Int) ≤ i) :
    ∃ e, pyListSet l i v = .error e := by
  unfold pyListSet
  rw [if_neg (by intro hc; rcases hc with ⟨h1, h2⟩; revert h1 h2; split <;> omega)]
  exact ⟨_, rfl⟩

/-- A `set_block` whose flattened index wraps into the Python list (any flat
index in -4096..4095) completes without error, whatever the coordinates
were. -/
theorem set_block_isOk_of_flat (s : Section) (x y z : Int) (bd : NbtTag)
    (key : String) (hkey : canonicalKey bd = .ok key)
    (hflat : -(s.blocks.length : Int) ≤ y * 256 + z * 16 + x
      ∧ y * 256 + z * 16 + x < s.blocks.length) :
    (Section.set_block s x y z bd).isOk = true := by
  unfold Section.set_block
  rw [hkey]
  cases hcase : List.lookup key s.palette_map <;>
    simp only [hcase] <;> rw [pyListSet_ok _ _ _ hflat] <;> rfl

/-- A `set_block` whose flattened index falls outside -4096..4095 raises
`IndexError`. -/
theorem set_block_err_of_flat (s : Section) (x y z : Int) (bd : NbtTag)
    (key : String) (hkey : canonicalKey bd = .ok key)
    (hflat : y * 256 + z * 16 + x < -(s.blocks.length : Int)
      ∨ (s.blocks.length : Int) ≤ y * 256 + z * 16 + x) :
    ∃ e, Section.set_block s x y z bd = .error e := by
  unfold Section.set_block
  rw [hkey]
  cases hcase : List.lookup key s.palette_map <;> simp only [hcase]
  · obtain ⟨e, he⟩ := pyListSet_err s.blocks (y * 256 + z * 16 + x)
      s.palette.length hflat
    rw [he]
    exact ⟨e, rfl⟩
  · rename_i i
    obtain ⟨e, he⟩ := pyListSet_err s.blocks (y * 256 + z * 16 + x) i hflat
    rw [he]
    exact ⟨e, rfl⟩

/-- C9 (amended): `Region.get_chunk` does raise immediately on a chunk
coordinate outside 0..31 (lines 362-363); `Section.set_block`, however, has
no bounds check of its own: it raises only when the flattened index
`y*256 + z*16 + x` falls outside the Python-list range -4096..4095, and any
other out-of-range coordinate (such as x = 16) silently writes to an
aliased cell. -/
theorem bounds_checks (rx rz : Int)
    (hout : ¬ (0 ≤ rx ∧ rx < 32 ∧ 0 ≤ rz ∧ rz < 32))
    (s : Section) (x y z : Int) (bd : NbtTag) (key : String)
    (hkey : canonicalKey bd = .ok key) (hlen : s.blocks.length = 4096) :
    (∃ e, Region.get_chunk_index rx rz = .error e)
    ∧ (-4096 ≤ y * 256 + z * 16 + x → y * 256 + z * 16 + x < 4096 →
        (Section.set_block s x y z bd).isOk = true)
    ∧ (y * 256 + z * 16 + x < -4096 ∨ 4096 ≤ y * 256 + z * 16 + x →
        ∃ e, Section.set_block s x y z bd = .error e) := by
  refine ⟨?_, ?_, ?_⟩
  · unfold Region.get_chunk_index
    rw [if_pos hout]
    exact ⟨_, rfl⟩
  · intro h1 h2
    exact set_block_isOk_of_flat s x y z bd key hkey
      (by rw [hlen]; constructor <;> [exact_mod_cast h1; exact_mod_cast h2])
  · intro h1
    exact set_block_err_of_flat s x y z bd key hkey
      (by rw [hlen]; rcases h1 with h | h; · left; exact_mod_cast h
          · right; exact_mod_cast h)

theorem bounds_checks_witness :
    ((¬ (0 ≤ (32 : Int) ∧ (32 : Int) < 32 ∧ 0 ≤ (0 : Int) ∧ (0 : Int) < 32))
      ∧ canonicalKey (.compound [("Name", NbtTag.string "minecraft:stone")])
          = .ok "minecraft:stone[]"
      ∧ (Section.new 0).blocks.length = 4096)
    ∧ ((∃ e, Region.get_chunk_index 32 0 = .error e)
      ∧ (-4096 ≤ (0 : Int) * 256 + 0 * 16 + 16 → (0 : Int) * 256 + 0 * 16 + 16 < 4096 →
          (Section.set_block (Section.new 0) 16 0 0
            (.compound [("Name", NbtTag.string "minecraft:stone")])).isOk = true)
      ∧ ((0 : Int) * 256 + 0 * 16 + 16 < -4096 ∨ 4096 ≤ (0 : Int) * 256 + 0 * 16 + 16 →
          ∃ e, Section.set_block (Section.new 0) 16 0 0
            (.compound [("Name", NbtTag.string "minecraft:stone")]) = .error e)) :=
  ⟨⟨by decide, by rfl, Section.new_blocks_length 0⟩,
    bounds_checks 32 0 (by decide) (Section.new 0) 16 0 0
      (.compound [("Name", NbtTag.string "minecraft:stone")])
      "minecraft:stone[]" (by rfl) (Section.new_blocks_length 0)⟩

/-- C9 counterexample: `Section.set_block` invoked at x = 16 (outside
0..15) completes without raising — the claimed immediate bounds error does
not happen. -/
theorem set_block_no_bounds_error_counterexample :
    (Section.set_block (Section.new 0) 16 0 0
        (.compound [("Name", NbtTag.string "minecraft:stone")])).isOk = true
    ∧ ¬ (0 ≤ (16 : Int) ∧ (16 : Int) < 16) :=
  ⟨set_block_isOk_of_flat (Section.new 0) 16 0 0
      (.compound [("Name", NbtTag.string "minecraft:stone")])
      "minecraft:stone[]" (by rfl)
      (by rw [Section.new_blocks_length]; constructor <;> norm_num),
    by decide⟩

theorem lookup_isSome_dictInsertSection (d : List (Int × Section)) (k y : Int)
    (v : Section) :
    (List.lookup k (dictInsertSection d y v)).isSome = true
      ↔ k = y ∨ (List.lookup k d).isSome = true := by
  unfold dictInsertSection
  split <;> rename_i hpresent
  · -- overwrite in place: the key set is unchanged
    have hf1 : ∀ kv : Int × Section,
        (if kv.1 = y then ((y, v) : Int × Section) else kv).1 = kv.1 := by
      intro kv
      split <;> rename_i hc
      · rw [hc]
      · rfl
    constructor
    · intro h
      right
      rw [List.lookup_isSome_iff] at h ⊢
      obtain ⟨p, hp, hk⟩ := h
      obtain ⟨q, hq, rfl⟩ := List.mem_map.mp hp
      rw [hf1 q] at hk
      exact ⟨q, hq, hk⟩
    · rintro (h | h)
      · subst h
        rw [List.lookup_isSome_iff] at hpresent ⊢
        obtain ⟨p, hp, hk⟩ := hpresent
        exact ⟨_, List.mem_map_of_mem _ hp, by rw [hf1 p]; exact hk⟩
      · rw [List.lookup_isSome_iff] at h ⊢
        obtain ⟨p, hp, hk⟩ := h
        exact ⟨_, List.mem_map_of_mem _ hp, by rw [hf1 p]; exact hk⟩
  · -- fresh key: appended at the end
    rw [List.lookup_append]
    cases hbeq : k == y
    · have h1 : List.lookup k [(y, v)] = none := by
        rw [List.lookup_cons, hbeq]
        rfl
      have h2 : ¬ k = y := by
        intro hc
        rw [hc] at hbeq
        simp at hbeq
      rw [h1]
      cases hd : List.lookup k d <;> simp [h2]
    · have h1 : List.lookup k [(y, v)] = some v := by
        rw [List.lookup_cons, hbeq]
      have h2 : k = y := eq_of_beq hbeq
      rw [h1]
      cases hd : List.lookup k d <;> simp [h2]

theorem dictInsertSection_y (d : List (Int × Section)) (k : Int) (v : Section)
    (hd : ∀ p ∈ d, p.2.y_index = p.1) (hv : v.y_index = k) :
    ∀ p ∈ dictInsertSection d k v, p.2.y_index = p.1 := by
  unfold dictInsertSection
  split
  · intro p hp
    obtain ⟨q, hq, hqe⟩ := List.mem_map.mp hp
    by_cases h : q.1 = k
    · rw [← hqe]
      simp only [if_pos h]
      exact hv
    · rw [← hqe]
      simp only [if_neg h]
      exact hd q hq
  · intro p hp
    rcases List.mem_append.mp hp with h | h
    · exact hd p h
    · have : p = (k, v) := by simpa using h
      subst this
      exact hv

theorem parseSectionList_mem :
    ∀ (entries : List NbtTag) (acc res : List (Int × Section)),
      Chunk.parseSectionList entries acc = .ok res →
      ∀ k : Int, (List.lookup k res).isSome = true
        ↔ (List.lookup k acc).isSome = true
          ∨ ∃ st ∈ entries, sectionEntryRegisters st k := by
  intro entries
  induction entries with
  | nil =>
    intro acc res h k
    have hres : acc = res := by
      have h' : (Except.ok acc : Except String (List (Int × Section)))
          = .ok res := h
      exact Except.ok.injEq _ _ ▸ h'
    subst hres
    simp
  | cons st rest ih =>
    intro acc res h k
    unfold Chunk.parseSectionList at h
    split at h
    · exact absurd h (by simp)
    rename_i hy hyeq
    by_cases hyv : hy = true
    · subst hyv
      rw [if_pos rfl] at h
      split at h
      · exact absurd h (by simp)
      rename_i hb hbeq
      by_cases hbv : hb = true
      · subst hbv
        rw [if_pos rfl] at h
        split at h <;> rename_i hsec
        · -- decoded: registered under sec.y_index
          rename_i sec
          rw [ih _ _ h k, lookup_isSome_dictInsertSection]
          constructor
          · rintro ((hk | hacc) | hrest)
            · exact Or.inr ⟨st, by simp, hyeq, hbeq, sec, hsec, hk.symm⟩
            · exact Or.inl hacc
            · obtain ⟨st', hst', hr⟩ := hrest
              exact Or.inr ⟨st', by simp [hst'], hr⟩
          · rintro (hacc | ⟨st', hst', hr⟩)
            · exact Or.inl (Or.inr hacc)
            · rcases List.mem_cons.mp hst' with rfl | hst'
              · obtain ⟨_, _, sec', hsec', hy'⟩ := hr
                rw [hsec] at hsec'
                have : sec = sec' := Except.ok.injEq _ _ ▸ hsec'
                subst this
                exact Or.inl (Or.inl hy'.symm)
              · exact Or.inr ⟨st', hst', hr⟩
        · -- decode failed: skipped
          rw [ih _ _ h k]
          constructor
          · rintro (hacc | hrest)
            · exact Or.inl hacc
            · obtain ⟨st', hst', hr⟩ := hrest
              exact Or.inr ⟨st', by simp [hst'], hr⟩
          · rintro (hacc | ⟨st', hst', hr⟩)
            · exact Or.inl hacc
            · rcases List.mem_cons.mp hst' with rfl | hst'
              · obtain ⟨_, _, sec', hsec', _⟩ := hr
                rw [hsec] at hsec'
                exact absurd hsec' (by simp)
              · exact Or.inr ⟨st', hst', hr⟩
      · rw [if_neg hbv] at h
        rw [ih _ _ h k]
        constructor
        · rintro (hacc | ⟨st', hst', hr⟩)
          · exact Or.inl hacc
          · exact Or.inr ⟨st', by simp [hst'], hr⟩
        · rintro (hacc | ⟨st', hst', hr⟩)
          · exact Or.inl hacc
          · rcases List.mem_cons.mp hst' with rfl | hst'
            · obtain ⟨_, hbs', _⟩ := hr
              rw [hbeq] at hbs'
              exact absurd (Except.ok.inj hbs') hbv
            · exact Or.inr ⟨st', hst', hr⟩
    · rw [if_neg hyv] at h
      rw [ih _ _ h k]
      constructor
      · rintro (hacc | ⟨st', hst', hr⟩)
        · exact Or.inl hacc
        · exact Or.inr ⟨st', by simp [hst'], hr⟩
      · rintro (hacc | ⟨st', hst', hr⟩)
        · exact Or.inl hacc
        · rcases List.mem_cons.mp hst' with rfl | hst'
          · obtain ⟨hy', _, _⟩ := hr
            rw [hyeq] at hy'
            exact absurd (Except.ok.inj hy') hyv
          · exact Or.inr ⟨st', hst', hr⟩

theorem parseSectionList_y :
    ∀ (entries : List NbtTag) (acc res : List (Int × Section)),
      Chunk.parseSectionList entries acc = .ok res →
      (∀ p ∈ acc, p.2.y_index = p.1) → ∀ p ∈ res, p.2.y_index = p.1 := by
  intro entries
  induction entries with
  | nil =>
    intro acc res h hacc
    have hres : acc = res := by
      have h' : (Except.ok acc : Except String (List (Int × Section)))
          = .ok res := h
      exact Except.ok.injEq _ _ ▸ h'
    subst hres
    exact hacc
  | cons st rest ih =>
    intro acc res h hacc
    unfold Chunk.parseSectionList at h
    split at h
    · exact absurd h (by simp)
    rename_i hy hyeq
    by_cases hyv : hy = true
    · subst hyv
      rw [if_pos rfl] at h
      split at h
      · exact absurd h (by simp)
      rename_i hb hbeq
      by_cases hbv : hb = true
      · subst hbv
        rw [if_pos rfl] at h
        split at h <;> rename_i hsec
        · exact ih _ _ h (dictInsertSection_y acc _ _ hacc rfl)
        · exact ih _ _ h hacc
      · rw [if_neg hbv] at h
        exact ih _ _ h hacc
    · rw [if_neg hyv] at h
      exact ih _ _ h hacc

theorem lookup_mem {α β : Type} [BEq α] [LawfulBEq α] {l : List (α × β)}
    {k : α} {v : β} (h : List.lookup k l = some v) : (k, v) ∈ l := by
  obtain ⟨l1, l2, rfl, -⟩ := List.lookup_eq_some_iff.mp h
  simp

theorem chunk_from_nbt_sections {tag : NbtTag} {entries : List NbtTag}
    {c : Chunk} (h : Chunk.from_nbt tag = .ok c)
    (hk : hasKeyE tag "sections" = .ok true)
    (hs : getItemE tag "sections" = .ok (.list entries)) :
    Chunk.parseSectionList entries [] = .ok c.sections := by
  unfold Chunk.from_nbt at h
  split at h
  · exact absurd h (by simp)
  split at h
  · exact absurd h (by simp)
  split at h
  · exact absurd h (by simp)
  split at h
  · exact absurd h (by simp)
  split at h
  · exact absurd h (by simp)
  split at h
  · exact absurd h (by simp)
  split at h
  · exact absurd h (by simp)
  split at h
  · exact absurd h (by simp)
  split at h
  · exact absurd h (by simp)
  rename_i hsec hseceq
  have hsect : hsec = true := by
    rw [hk] at hseceq
    exact (Except.ok.inj hseceq).symm
  subst hsect
  split at h
  · exact absurd h (by simp)
  rename_i secs hsecs
  rw [if_pos rfl, hs] at hsecs
  have hsecs' : Chunk.parseSectionList entries [] = .ok secs := hsecs
  split at h
  · rename_i e htag
    have hc := Except.ok.inj h
    rw [← hc]
    exact hsecs'
  · exact absurd h (by simp)

/-- C10: `Chunk.from_nbt` registers a section under key `k` exactly when some
entry of the `sections` list has both a `Y` and a `block_states` key and
decodes to a section whose Y-index is `k`; any other entry is skipped, so for
an unregistered `k` no tag in the `sections` list emitted by a subsequent
`Chunk.to_nbt` carries `Y = k` — the round trip drops those entries. -/
theorem chunk_fromnbt_registers_only_good (tag : NbtTag)
    (entries : List NbtTag) (c : Chunk)
    (h : Chunk.from_nbt tag = .ok c)
    (hk : hasKeyE tag "sections" = .ok true)
    (hs : getItemE tag "sections" = .ok (.list entries)) :
    (∀ k : Int, (List.lookup k c.sections).isSome = true
        ↔ ∃ st ∈ entries, sectionEntryRegisters st k)
    ∧ (∀ k : Int, (¬ ∃ st ∈ entries, sectionEntryRegisters st k) →
        ∀ tags, getItemE (Chunk.to_nbt c) "sections" = .ok (.list tags) →
          ∀ t ∈ tags, ¬ getItemE t "Y" = .ok (.byte k)) := by
  have hparse := chunk_from_nbt_sections h hk hs
  have hiff : ∀ k : Int, (List.lookup k c.sections).isSome = true
      ↔ ∃ st ∈ entries, sectionEntryRegisters st k := by
    intro k
    rw [parseSectionList_mem entries [] c.sections hparse k]
    simp
  have hyinv : ∀ p ∈ c.sections, p.2.y_index = p.1 :=
    parseSectionList_y entries [] c.sections hparse
      (by intro p hp; exact absurd hp (List.not_mem_nil p))
  refine ⟨hiff, ?_⟩
  intro k hnone tags htags t ht hYk
  have htags' : getItemE (Chunk.to_nbt c) "sections"
      = .ok (.list ((sortIntsAsc (c.sections.map Prod.fst)).map
        (fun y => Section.to_nbt
          ((List.lookup y c.sections).getD (Section.new 0))))) := rfl
  rw [htags] at htags'
  have hteq := NbtTag.list.inj (Except.ok.inj htags')
  rw [hteq] at ht
  obtain ⟨y, hymem, rfl⟩ := List.mem_map.mp ht
  rw [mem_sortIntsAsc] at hymem
  obtain ⟨p, hp, hp1⟩ := List.mem_map.mp hymem
  have hsome : (List.lookup y c.sections).isSome = true := by
    rw [List.lookup_isSome_iff]
    exact ⟨p, hp, by rw [hp1]; exact beq_self_eq_true y⟩
  obtain ⟨s', hs'⟩ := Option.isSome_iff_exists.mp hsome
  rw [hs'] at hYk
  simp only [Option.getD_some] at hYk
  have hY0 : getItemE (Section.to_nbt s') "Y"
      = .ok (.byte (s'.y_index)) := rfl
  rw [hY0] at hYk
  have hk_eq : s'.y_index = k := NbtTag.byte.inj (Except.ok.inj hYk)
  have hys : s'.y_index = y := hyinv (y, s') (lookup_mem hs')
  have hyk : y = k := by rw [← hys, hk_eq]
  refine hnone ((hiff k).mp ?_)
  rw [← hyk]
  exact hsome

theorem chunk_fromnbt_registers_only_good_witness :
    (Chunk.from_nbt c10Tag = .ok c10Chunk
      ∧ hasKeyE c10Tag "sections" = .ok true
      ∧ getItemE c10Tag "sections" = .ok (.list c10Entries))
    ∧ ((∀ k : Int, (List.lookup k c10Chunk.sections).isSome = true
          ↔ ∃ st ∈ c10Entries, sectionEntryRegisters st k)
      ∧ (∀ k : Int, (¬ ∃ st ∈ c10Entries, sectionEntryRegisters st k) →
          ∀ tags, getItemE (Chunk.to_nbt c10Chunk) "sections"
              = .ok (.list tags) →
            ∀ t ∈ tags, ¬ getItemE t "Y" = .ok (.byte k))) :=
  ⟨⟨rfl, rfl, rfl⟩,
    chunk_fromnbt_registers_only_good c10Tag c10Entries c10Chunk rfl rfl rfl⟩

end AnvilWriter
